import Mathlib

/-!
Verification development for the memri capture pipeline.

This file gives a shallow embedding, in Lean 4, of the core operations of the
memri screen-memory recorder (crates `capture`, `storage` and the backend's
query-term extraction), and proves or refutes the frozen specification claims
about them.

Modelling conventions:
- Rust `u64` / `usize` / `i64` values are modelled as `Nat` / `Int`, with
  saturating or wrapping arithmetic made explicit where the source uses it.
- Rust strings are modelled as `List Char` (`RStr`).  The source's
  `char::is_alphanumeric`, `str::to_lowercase`, `str::len` and SQLite's
  `LOWER` are modelled by their ASCII behaviour, on which they all agree.
- Fallible external effects (SQL inserts, file writes, file reads, OCR) are
  modelled by explicit outcome oracles passed as arguments.
- `f32` / `f64` metric values (histogram delta, SSIM) are abstracted as
  rationals: the control flow that consumes them is embedded exactly, the
  float arithmetic that produces them is a parameter.
-/

set_option linter.unusedVariables false

namespace Memri

/-- Rust string slices, modelled as lists of characters. -/
abbrev RStr := List Char

/-- Rust `str::to_lowercase` (ASCII fragment, which also matches SQLite `LOWER`). -/
def lowerStr (s : RStr) : RStr := s.map Char.toLower

/-- Helper for `splitWhitespace`: accumulates the current word (reversed). -/
def splitWhitespaceAux : List Char → List Char → List RStr
  | [], acc => if acc.isEmpty then [] else [acc.reverse]
  | c :: rest, acc =>
    if c.isWhitespace then
      if acc.isEmpty then splitWhitespaceAux rest []
      else acc.reverse :: splitWhitespaceAux rest []
    else splitWhitespaceAux rest (c :: acc)

/-- Rust `str::split_whitespace`: maximal runs of non-whitespace characters. -/
def splitWhitespace (s : RStr) : List RStr := splitWhitespaceAux s []

/-- Largest value of a Rust `u64` (also of `usize` on the 64-bit targets the app builds for). -/
def U64_MAX : Nat := 2 ^ 64 - 1

/-- Rust `u64::saturating_add(1)` (used as `frame_number.saturating_add(1)` in
`start_capture` and `idx.saturating_add(1)` in `process_windows_for_ocr`). -/
def saturating_add_one (n : Nat) : Nat := min (n + 1) U64_MAX

/-- Rust cast `as i64` applied to a `u64` value (two's-complement reinterpretation). -/
def u64ToI64 (n : Nat) : Int := if n < 2 ^ 63 then (n : Int) else (n : Int) - 2 ^ 64

/-! ## Change decisions (crates/capture/src/change_detection.rs)

`ChangeDecision` carries the computed `f32` metrics; they are modelled as
rationals (the decision logic only compares them with the constant thresholds).
-/

/-- Embedding of `enum ChangeDecision { FirstFrame, Significant{..}, Insignificant{..} }`. -/
inductive ChangeDecision where
  | firstFrame
  | significant (histogram_delta ssim_score : ℚ)
  | insignificant (histogram_delta ssim_score : ℚ)
deriving DecidableEq

/-! ## Adaptive backoff (crates/capture/src/lib.rs, `struct Backoff`)

Durations are modelled in whole milliseconds (`Nat`); all durations the source
builds come from `Duration::from_millis`.  The source computes the idle growth
as `(self.current.as_millis() as f32 * 1.5).round() as u64`; this is embedded
exactly as the integer `(3 * current + 1) / 2`, which equals
`round(1.5 * current)` with halves rounded away from zero, the value the `f32`
computation produces throughout the exactly-representable range.
-/

/-- Embedding of `struct Backoff { base, max, current: Duration }` in milliseconds. -/
structure Backoff where
  base : Nat
  max : Nat
  current : Nat
deriving DecidableEq

/-- Embedding of `Backoff::new`: `max` is clamped up to at least `base`, `current` starts at `base`. -/
def Backoff.new (base max : Nat) : Backoff :=
  { base := base, max := Nat.max max base, current := base }

/-- Embedding of `Backoff::current_delay`. -/
def Backoff.current_delay (b : Backoff) : Nat := b.current

/-- Embedding of `Backoff::record`. -/
def Backoff.record (b : Backoff) (decision : ChangeDecision) : Backoff :=
  match decision with
  | .significant _ _ => { b with current := b.base }
  | .firstFrame => { b with current := b.base }
  | .insignificant _ _ => { b with current := min ((3 * b.current + 1) / 2) b.max }

/-- Embedding of `Backoff::on_error`: `current ← min(current + base, max)`. -/
def Backoff.on_error (b : Backoff) : Backoff :=
  { b with current := min (b.current + b.base) b.max }

/-- One call made to the backoff by the capture loop. -/
inductive BackoffOp where
  | record (decision : ChangeDecision)
  | onError
deriving DecidableEq

/-- Apply one backoff call. -/
def Backoff.apply (b : Backoff) : BackoffOp → Backoff
  | .record d => b.record d
  | .onError => b.on_error

/-- Apply a sequence of backoff calls, oldest first. -/
def Backoff.applyOps (b : Backoff) (ops : List BackoffOp) : Backoff :=
  ops.foldl Backoff.apply b

/-- Well-formedness of a backoff state: fields within the documented ranges. -/
def Backoff.Inv (b : Backoff) : Prop :=
  b.base ≤ b.max ∧ b.base ≤ b.current ∧ b.current ≤ b.max

/-! ## Capture-loop frame counter (crates/capture/src/lib.rs, `start_capture`)

One loop iteration ends in one of four ways: the platform capture fails
(`perform_iteration` returns `Err`), the change detector reports an
insignificant frame (`Ok { captured: false }`), the storage sink rejects the
batch (`Err` again), or the batch is committed (`Ok { captured: true }`).
Only the last advances `frame_number`, with `saturating_add(1)`; the persisted
batch carries the value from before the advance.
-/

/-- How one capture-loop iteration ended. -/
inductive TickOutcome where
  | platformError
  | insignificantFrame
  | persistError
  | committed
deriving DecidableEq

/-- Whether the iteration committed a batch. -/
def TickOutcome.isCommitted : TickOutcome → Bool
  | .committed => true
  | _ => false

/-- One step of the loop body's bookkeeping: the new `frame_number` and the
`frame_number` carried by the batch persisted this iteration, if any. -/
def loopStep (frame_number : Nat) : TickOutcome → Nat × Option Nat
  | .committed => (saturating_add_one frame_number, some frame_number)
  | .platformError => (frame_number, none)
  | .insignificantFrame => (frame_number, none)
  | .persistError => (frame_number, none)

/-- Run the loop over a sequence of iteration outcomes, oldest first, returning
the final `frame_number` and the `frame_number` values of the persisted
batches, in persistence order. -/
def loopRun (frame_number : Nat) : List TickOutcome → Nat × List Nat
  | [] => (frame_number, [])
  | t :: rest =>
    let s := loopStep frame_number t
    let r := loopRun s.1 rest
    (r.1, s.2.toList ++ r.2)

/-- Number of committed iterations in a tick sequence. -/
def countCommitted (ticks : List TickOutcome) : Nat :=
  ticks.countP TickOutcome.isCommitted

/-! ## Change detector (crates/capture/src/change_detection.rs)

The detector's state is `previous: Option<FrameSignature>`.  Signature
extraction (`FrameSignature::from_image`) and the two `f32` metrics
(`histogram_distance`, `compute_ssim`) are kept abstract: the embedding is
parametric in an image type, a signature type and the three functions, with
the metric values as rationals.  The decision rule and the state update are
embedded exactly; the thresholds are the source constants
`HISTOGRAM_THRESHOLD = 0.08` and `SSIM_THRESHOLD = 0.92`.
-/

/-- Threshold constant `HISTOGRAM_THRESHOLD: f32 = 0.08`. -/
def HISTOGRAM_THRESHOLD : ℚ := 8 / 100

/-- Threshold constant `SSIM_THRESHOLD: f32 = 0.92`. -/
def SSIM_THRESHOLD : ℚ := 92 / 100

/-- Abstracted signature extraction and frame metrics used by the detector. -/
structure DetectorFuns (Img Sig : Type) where
  fromImage : Img → Sig
  histogram_distance : Sig → Sig → ℚ
  compute_ssim : Sig → Sig → ℚ

/-- Embedding of `ChangeDetector::evaluate`: takes the stored previous
signature, returns the decision together with the new stored signature. -/
def ChangeDetector.evaluate {Img Sig : Type} (F : DetectorFuns Img Sig)
    (previous : Option Sig) (image : Img) : ChangeDecision × Option Sig :=
  let signature := F.fromImage image
  match previous with
  | none => (ChangeDecision.firstFrame, some signature)
  | some previous_signature =>
    let histogram_delta := F.histogram_distance signature previous_signature
    let ssim_score := F.compute_ssim signature previous_signature
    if histogram_delta ≥ HISTOGRAM_THRESHOLD ∨ ssim_score ≤ SSIM_THRESHOLD then
      (ChangeDecision.significant histogram_delta ssim_score, some signature)
    else
      (ChangeDecision.insignificant histogram_delta ssim_score, some signature)

/-- A trivial concrete instantiation of the detector parameters, used to
exercise the detector theorems on explicit inputs. -/
def trivialDetectorFuns : DetectorFuns Unit Unit :=
  { fromImage := fun _ => ()
    histogram_distance := fun _ _ => 0
    compute_ssim := fun _ _ => 1 }

/-! ## Storage data model (crates/storage/src/lib.rs)

The SQLite state is modelled as the two tables in insertion order plus the
next `captures` rowid.  `REAL` confidences are carried as rationals (they are
only stored and read back, never computed with).  Nullable `TEXT` columns are
`Option RStr`.
-/

/-- Embedding of a row of the `captures` table. -/
structure CaptureRow where
  id : Int
  frame_number : Int
  timestamp_ms : Int
deriving DecidableEq

/-- Embedding of a row of the `captured_windows` table (its surrogate `id`
column is never read back and is omitted). -/
structure WindowRow where
  capture_id : Int
  window_name : Option RStr
  app_name : Option RStr
  text : Option RStr
  confidence : Option ℚ
  ocr_json : Option RStr
  image_base64 : Option RStr
  image_path : Option RStr
  browser_url : Option RStr
deriving DecidableEq

/-- Embedding of the database state. -/
structure DB where
  captures : List CaptureRow
  windows : List WindowRow
  next_capture_id : Int
deriving DecidableEq

/-- Embedding of `struct CapturedWindowRecord`. -/
structure CapturedWindowRecord where
  window_name : RStr
  app_name : RStr
  text : RStr
  confidence : Option ℚ
  ocr_json : Option RStr
  image_base64 : Option RStr
  image_path : Option RStr
  browser_url : Option RStr
deriving DecidableEq

/-- Embedding of `struct CaptureBatch`. -/
structure CaptureBatch where
  frame_number : Nat
  timestamp_ms : Int
  windows : List CapturedWindowRecord
deriving DecidableEq

/-- Embedding of `struct CaptureWithWindows`. -/
structure CaptureWithWindows where
  capture_id : Int
  frame_number : Int
  timestamp_ms : Int
  windows : List CapturedWindowRecord
deriving DecidableEq

/-! ## persist_batch (impl CaptureSink for SqliteSink) -/

/-- The child row bound by the `INSERT INTO captured_windows` statement. -/
def recordToRow (capture_id : Int) (w : CapturedWindowRecord) : WindowRow :=
  { capture_id := capture_id
    window_name := some w.window_name
    app_name := some w.app_name
    text := some w.text
    confidence := w.confidence
    ocr_json := w.ocr_json
    image_base64 := w.image_base64
    image_path := w.image_path
    browser_url := w.browser_url }

/-- Sequential child inserts of `persist_batch`.  `childOk k` is the outcome
oracle for the k-th `INSERT`; the `?` operator aborts on the first failure,
leaving the rows already inserted in place (the source acquires a plain
connection, with no surrounding transaction). -/
def insertWindows (db : DB) (capture_id : Int) (ws : List CapturedWindowRecord)
    (childOk : Nat → Bool) (k : Nat) : DB × Bool :=
  match ws with
  | [] => (db, true)
  | w :: rest =>
    if childOk k then
      insertWindows { db with windows := db.windows ++ [recordToRow capture_id w] }
        capture_id rest childOk (k + 1)
    else (db, false)

/-! ## prune (SqliteSink::prune) -/

/-- Retention cutoff `current_time_ms().saturating_sub(days.saturating_mul(86_400_000))`,
then cast `as i64` for the SQL bind. -/
def pruneCutoff (now_ms days : Nat) : Int :=
  u64ToI64 (now_ms - min (days * 86400000) U64_MAX)

/-- Delete the capture rows with the given ids; `ON DELETE CASCADE` removes
their child rows. -/
def deleteCaptures (db : DB) (ids : List Int) : DB :=
  { db with
    captures := db.captures.filter (fun c => !(ids.contains c.id))
    windows := db.windows.filter (fun w => !(ids.contains w.capture_id)) }

/-- Delete the capture rows satisfying `p` (the retention `DELETE ... WHERE`),
cascading to their child rows. -/
def deleteCapturesWhere (db : DB) (p : CaptureRow → Bool) : DB :=
  let deleted := (db.captures.filter p).map (fun c => c.id)
  { db with
    captures := db.captures.filter (fun c => !(p c))
    windows := db.windows.filter (fun w => !(deleted.contains w.capture_id)) }

/-- Stable insertion into a list sorted by `le`. -/
def insertBy {α : Type} (le : α → α → Bool) (a : α) : List α → List α
  | [] => [a]
  | b :: t => if le a b then a :: b :: t else b :: insertBy le a t

/-- Stable insertion sort by `le`; models a SQLite `ORDER BY` (ties, whose
relative order SQLite leaves unspecified, are resolved stably by table order). -/
def sortBy {α : Type} (le : α → α → Bool) : List α → List α
  | [] => []
  | a :: t => insertBy le a (sortBy le t)

/-- Ids selected by `SELECT id FROM captures ORDER BY timestamp_ms ASC LIMIT ?`. -/
def oldestIds (db : DB) (to_delete : Nat) : List Int :=
  (((sortBy (fun a b => decide (a.timestamp_ms ≤ b.timestamp_ms)) db.captures).take
    to_delete).map (fun c => c.id))

/-- First stage of `SqliteSink::prune`: the retention deletion
`DELETE FROM captures WHERE timestamp_ms < ?` when `retention_days` is set. -/
def retentionStage (retention_days : Option Nat) (now_ms : Nat) (db : DB) : DB :=
  match retention_days with
  | some days =>
    deleteCapturesWhere db (fun c => decide (c.timestamp_ms < pruneCutoff now_ms days))
  | none => db

/-- Second stage of `SqliteSink::prune`: when `max_captures` is set and
`COUNT(1) > max`, delete the oldest `count - max` captures. -/
def capStage (max_captures : Option Nat) (db1 : DB) : DB :=
  match max_captures with
  | some maxc =>
    let total := db1.captures.length
    if u64ToI64 maxc < (total : Int) then
      deleteCaptures db1 (oldestIds db1 ((total : Int) - u64ToI64 maxc).toNat)
    else db1
  | none => db1

/-- Embedding of `SqliteSink::prune`.  `retention_days` / `max_captures` are
the sink's optional settings (`None` when the config value is 0); `now_ms` is
the value of `current_time_ms()`. -/
def prune (retention_days max_captures : Option Nat) (now_ms : Nat) (db : DB) : DB :=
  capStage max_captures (retentionStage retention_days now_ms db)

/-- Embedding of `SqliteSink::persist_batch`.  `parentOk` / `childOk` are the
outcome oracles of the `INSERT` statements.  Returns the resulting database
state and whether the call returned `Ok`.  On success `prune` runs
(best-effort; in this model `prune` is total). -/
def persist_batch (retention_days max_captures : Option Nat) (now_ms : Nat)
    (db : DB) (batch : CaptureBatch) (parentOk : Bool) (childOk : Nat → Bool) : DB × Bool :=
  if !parentOk then (db, false)
  else
    let capture_id := db.next_capture_id
    let db1 : DB :=
      { captures := db.captures ++
          [{ id := capture_id
             frame_number := u64ToI64 batch.frame_number
             timestamp_ms := batch.timestamp_ms }]
        windows := db.windows
        next_capture_id := capture_id + 1 }
    let r := insertWindows db1 capture_id batch.windows childOk 0
    if r.2 then (prune retention_days max_captures now_ms r.1, true) else (r.1, false)

/-! ## search_captures (SqliteSink::search_captures) -/

/-- SQLite `LIKE` matching (no ESCAPE clause): `%` matches any sequence, `_`
matches any single character.  Both sides are already lowercased by the
caller, so the ASCII case folding `LIKE` performs itself is immaterial. -/
def likeMatch : List Char → List Char → Bool
  | [], s => s.isEmpty
  | '%' :: p, s => s.tails.any (fun t => likeMatch p t)
  | '_' :: p, s =>
    match s with
    | [] => false
    | _ :: s' => likeMatch p s'
  | a :: p, s =>
    match s with
    | [] => false
    | c :: s' => a == c && likeMatch p s'

/-- The bound pattern `format!("%{}%", term.to_lowercase())`. -/
def likePattern (term : RStr) : List Char := '%' :: (lowerStr term ++ ['%'])

/-- SQL `LOWER(col) LIKE pattern` on a nullable column: NULL never matches. -/
def colLike (pattern : List Char) : Option RStr → Bool
  | none => false
  | some s => likeMatch pattern (lowerStr s)

/-- One term's clause
`(LOWER(cw.text) LIKE ? OR LOWER(cw.window_name) LIKE ? OR LOWER(cw.app_name) LIKE ? OR LOWER(cw.browser_url) LIKE ?)`. -/
def windowMatchesTerm (term : RStr) (w : WindowRow) : Bool :=
  let pattern := likePattern term
  colLike pattern w.text || colLike pattern w.window_name ||
    colLike pattern w.app_name || colLike pattern w.browser_url

/-- The OR-join of all term clauses. -/
def windowMatchesAny (terms : List RStr) (w : WindowRow) : Bool :=
  terms.any (fun t => windowMatchesTerm t w)

/-- The time clause
`(? IS NULL OR c.timestamp_ms >= ?) AND (? IS NULL OR c.timestamp_ms <= ?)`
(appended only when a bound is present, which is equivalent to always
appending it). -/
def timeOk (start_time_ms end_time_ms : Option Int) (ts : Int) : Bool :=
  (match start_time_ms with
   | none => true
   | some s => decide (s ≤ ts)) &&
  (match end_time_ms with
   | none => true
   | some e => decide (ts ≤ e))

/-- Query terms: `query.split_whitespace().filter(|t| t.len() > 1)` (byte
length; this model covers ASCII, where bytes and characters agree). -/
def searchTerms (query : RStr) : List RStr :=
  (splitWhitespace query).filter (fun t => t.length > 1)

/-- SQLite `LIMIT n` with an `i64` bind: a negative limit means no limit. -/
def sqlLimit {α : Type} (n : Int) (xs : List α) : List α :=
  if n < 0 then xs else xs.take n.toNat

/-- Insertion into the `BTreeMap<i64, CaptureWithWindows>` model: an
association list kept in strictly ascending key order. -/
def btreeInsert {α : Type} (k : Int) (v : α) : List (Int × α) → List (Int × α)
  | [] => [(k, v)]
  | (k', v') :: t =>
    if k < k' then (k, v) :: (k', v') :: t
    else if k = k' then (k, v) :: t
    else (k', v') :: btreeInsert k v t

/-- The record built from a metadata window row (`image_base64: None`,
`unwrap_or_default()` on the nullable text columns). -/
def rowToMetaRecord (w : WindowRow) : CapturedWindowRecord :=
  { window_name := w.window_name.getD []
    app_name := w.app_name.getD []
    text := w.text.getD []
    confidence := w.confidence
    ocr_json := w.ocr_json
    image_base64 := none
    image_path := w.image_path
    browser_url := w.browser_url }

/-- A capture row with the metadata view of its child rows attached in table
order (the fetch returns child rows in table order and the loop pushes each
onto its capture's entry). -/
def captureWithMeta (db : DB) (c : CaptureRow) : CaptureWithWindows :=
  { capture_id := c.id
    frame_number := c.frame_number
    timestamp_ms := c.timestamp_ms
    windows := (db.windows.filter (fun w => w.capture_id == c.id)).map rowToMetaRecord }

/-- Embedding of `SqliteSink::search_captures`.  The
`SELECT DISTINCT c.id, c.frame_number, c.timestamp_ms ... JOIN ... WHERE`
result is the capture rows having at least one child row matching some term,
deduplicated; `ORDER BY c.timestamp_ms DESC LIMIT ?` is a stable descending
sort followed by `sqlLimit`; the `BTreeMap` regrouping returns the rows in
ascending `capture_id` order. -/
def search_captures (db : DB) (query : RStr) (start_time_ms end_time_ms : Option Int)
    (limit : Int) : List CaptureWithWindows :=
  let terms := searchTerms query
  if terms.isEmpty then []
  else
    let matching := db.captures.filter (fun c =>
      timeOk start_time_ms end_time_ms c.timestamp_ms &&
        db.windows.any (fun w => w.capture_id == c.id && windowMatchesAny terms w))
    let ordered := sortBy (fun a b => decide (b.timestamp_ms ≤ a.timestamp_ms)) matching.dedup
    let limited := sqlLimit limit ordered
    (limited.foldl (fun acc c => btreeInsert c.id (captureWithMeta db c) acc) []).map
      (fun p => p.2)

/-! ## fetch_images_for_captures (SqliteSink::fetch_images_for_captures) -/

/-- Insertion into the `HashMap<i64, String>` model: replace the value at an
existing key, append otherwise. -/
def hashInsert {α : Type} (k : Int) (v : α) : List (Int × α) → List (Int × α)
  | [] => [(k, v)]
  | (k', v') :: t => if k = k' then (k, v) :: t else (k', v') :: hashInsert k v t

/-- Map lookup on the association-list models. -/
def lookupKey {α : Type} (k : Int) : List (Int × α) → Option α
  | [] => none
  | (k', v) :: t => if k = k' then some v else lookupKey k t

/-- Embedding of `SqliteSink::fetch_images_for_captures`.  `readFile` models
`fs::read` (`none` = I/O error); `encode` models base64-encoding the bytes.
The `SELECT capture_id, image_path ... WHERE capture_id IN (..)` rows come
back in table order. -/
def fetch_images_for_captures (db : DB) (ids : List Int)
    (readFile : RStr → Option (List Nat)) (encode : List Nat → RStr) :
    List (Int × RStr) :=
  if ids.isEmpty then []
  else
    (db.windows.filter (fun w => ids.contains w.capture_id)).foldl
      (fun images row =>
        match row.image_path with
        | some path =>
          match readFile path with
          | some bytes => hashInsert row.capture_id (encode bytes) images
          | none => images
        | none => images)
      []

/-! ## Browser URL extraction (crates/capture/src/lib.rs, `extract_browser_url`) -/

/-- Rust `str::is_prefix`-style check: `List.isPrefixOf` as a Bool. -/
def startsWithStr (needle hay : RStr) : Bool := needle.isPrefixOf hay

/-- Rust `str::contains` (substring search). -/
def isSubstring (needle : RStr) : RStr → Bool
  | [] => needle.isEmpty
  | hay@(_ :: t) => startsWithStr needle hay || isSubstring needle t

/-- The browser needles of `extract_browser_url`. -/
def BROWSER_NEEDLES : List RStr :=
  ["chrome", "edge", "firefox", "brave", "opera", "vivaldi", "arc"].map String.toList

/-- A match of the regex `https?://\S+` anchored at the start of `s`:
the scheme literal followed by the maximal non-empty run of
non-whitespace characters. -/
def urlMatchHere (s : List Char) : Option RStr :=
  if startsWithStr "https://".toList s then
    let body := (s.drop 8).takeWhile (fun c => !c.isWhitespace)
    if body.isEmpty then none else some ("https://".toList ++ body)
  else if startsWithStr "http://".toList s then
    let body := (s.drop 7).takeWhile (fun c => !c.isWhitespace)
    if body.isEmpty then none else some ("http://".toList ++ body)
  else none

/-- Leftmost match of `URL_RE = https?://\S+` (`Regex::find`). -/
def urlFind : List Char → Option RStr
  | [] => none
  | c :: rest =>
    match urlMatchHere (c :: rest) with
    | some m => some m
    | none => urlFind rest

/-- The trailing punctuation trimmed off a URL match: `,.;)]}>\"'`. -/
def TRAILING_PUNCT : List Char := [',', '.', ';', ')', ']', '}', '>', '"', '\'']

/-- The `while let Some(last) = url.chars().last()` trim loop. -/
def stripTrailing (url : RStr) : RStr :=
  (url.reverse.dropWhile (fun c => TRAILING_PUNCT.contains c)).reverse

/-- Embedding of `extract_browser_url`. -/
def extract_browser_url (is_focused : Bool) (app_name window_title : RStr) : Option RStr :=
  if !is_focused then none
  else
    let app := lowerStr app_name
    let is_browser := BROWSER_NEEDLES.any (fun needle => isSubstring needle app)
    if !is_browser then none
    else
      match urlFind window_title with
      | none => none
      | some m =>
        let url := stripTrailing m
        if url.isEmpty then none else some url

/-! ## OCR dispatch (crates/capture/src/lib.rs, `process_windows_for_ocr`)

Each window carries the outcomes of its two fallible external steps: whether
PNG-encode-and-write succeeds (`writeOk`, the `save_image_to_disk` result) and
the OCR engine's answer (`ocr`, `none` meaning `recognize` returned `Err`).
-/

/-- The OCR engine's successful payload (`text`, `confidence`, `json`). -/
structure OcrPayload where
  text : RStr
  confidence : Option ℚ
  json : Option RStr
deriving DecidableEq

/-- One captured window handed to `process_windows_for_ocr`, with its
per-window external outcomes. -/
structure WindowInput where
  window_name : RStr
  app_name : RStr
  is_focused : Bool
  writeOk : Bool
  ocr : Option OcrPayload
deriving DecidableEq

/-- The on-disk path `image_dir.join(format!("frame_{}_{}_{}.png", timestamp_ms, frame_number, idx))`. -/
def mkImagePath (image_dir : RStr) (timestamp_ms : Int) (frame_number : Nat) (idx : Nat) : RStr :=
  image_dir ++ ('/' :: (s!"frame_{timestamp_ms}_{frame_number}_{idx}.png").toList)

/-- The record produced for one window at file-name index `idx`. -/
def processWindow (w : WindowInput) (frame_number : Nat) (timestamp_ms : Int)
    (image_dir : RStr) (idx : Nat) : CapturedWindowRecord :=
  if !w.writeOk then
    { window_name := w.window_name
      app_name := w.app_name
      text := []
      confidence := none
      ocr_json := none
      image_base64 := none
      image_path := none
      browser_url := none }
  else
    let image_path := mkImagePath image_dir timestamp_ms frame_number idx
    let ocr_text := match w.ocr with | some payload => payload.text | none => []
    let ocr_confidence := match w.ocr with | some payload => payload.confidence | none => none
    let ocr_json := match w.ocr with | some payload => payload.json | none => none
    { window_name := w.window_name
      app_name := w.app_name
      text := ocr_text
      confidence := ocr_confidence
      ocr_json := ocr_json
      image_base64 := none
      image_path := some image_path
      browser_url := extract_browser_url w.is_focused w.app_name w.window_name }

/-- Embedding of the loop of `process_windows_for_ocr` from file-name index
`idx` on: one record per window, `idx.saturating_add(1)` after each window
regardless of outcome (`usize` saturates at the same bound as `u64` on the
64-bit targets the app builds for). -/
def processWindowsFrom (windows : List WindowInput) (frame_number : Nat) (timestamp_ms : Int)
    (image_dir : RStr) (idx : Nat) : List CapturedWindowRecord :=
  match windows with
  | [] => []
  | w :: rest =>
    processWindow w frame_number timestamp_ms image_dir idx ::
      processWindowsFrom rest frame_number timestamp_ms image_dir (saturating_add_one idx)

/-- Embedding of `process_windows_for_ocr` (the loop starts at `idx = 0`). -/
def process_windows_for_ocr (windows : List WindowInput) (frame_number : Nat)
    (timestamp_ms : Int) (image_dir : RStr) : List CapturedWindowRecord :=
  processWindowsFrom windows frame_number timestamp_ms image_dir 0

/-! ## Query-term extraction (apps/backend/src/main.rs, `extract_search_terms`) -/

/-- The stop-word table of `extract_search_terms`. -/
def STOP_WORDS : List RStr :=
  (["what", "did", "i", "do", "on", "the", "was", "were", "last", "yesterday",
    "today", "show", "me", "find", "search", "look", "for", "my", "a", "an", "in",
    "have", "has", "been", "any", "some", "which", "where", "when", "how", "why",
    "can", "could", "would", "should", "will", "that", "this", "these", "those",
    "with", "from", "about", "into", "through", "during", "before", "after",
    "above", "below", "between", "under", "again", "further", "then", "once",
    "here", "there", "all", "each", "few", "more", "most", "other", "such",
    "only", "own", "same", "than", "too", "very", "just", "also", "now",
    "work", "done", "watched", "looked", "used", "opened", "saw", "see",
    "videos", "video", "page", "pages", "site", "sites", "app", "apps"]).map
    String.toList

/-- The quoted-string pass of `extract_search_terms`: characters between `"`
or `'` quotes (over the original, non-lowercased text) accumulate into exact
terms; `current` holds the pending characters in reverse. -/
def extractQuoted : List Char → Bool → List Char → List RStr
  | [], _, _ => []
  | c :: rest, in_quote, current =>
    if c == '"' || c == '\'' then
      if in_quote && !current.isEmpty then
        current.reverse :: extractQuoted rest (!in_quote) []
      else extractQuoted rest (!in_quote) current
    else if in_quote then extractQuoted rest in_quote (c :: current)
    else extractQuoted rest in_quote current

/-- Rust `str::trim_matches(|c: char| !c.is_alphanumeric())` (ASCII fragment). -/
def trimNonAlphanumeric (w : RStr) : RStr :=
  ((w.dropWhile (fun c => !c.isAlphanum)).reverse.dropWhile (fun c => !c.isAlphanum)).reverse

/-- The main word loop of `extract_search_terms`: keep a cleaned word when it
is longer than 2 bytes, not a stop word and not already collected. -/
def collectWords (terms : List RStr) : List RStr → List RStr
  | [] => terms
  | word :: rest =>
    let cleaned := trimNonAlphanumeric word
    if cleaned.length > 2 && !STOP_WORDS.contains cleaned && !terms.contains cleaned then
      collectWords (terms ++ [cleaned]) rest
    else collectWords terms rest

/-- The permissive fallback loop: the first cleaned word of length ≥ 3 (the
source `break`s after pushing one term). -/
def fallbackTerm : List RStr → List RStr
  | [] => []
  | word :: rest =>
    let cleaned := trimNonAlphanumeric word
    if cleaned.length ≥ 3 then [cleaned] else fallbackTerm rest

/-- Embedding of `extract_search_terms`. -/
def extract_search_terms (query : RStr) : RStr :=
  let query_lower := lowerStr query
  let terms0 := extractQuoted query false []
  let terms1 := collectWords terms0 (splitWhitespace query_lower)
  let terms2 := if terms1.isEmpty then fallbackTerm (splitWhitespace query_lower) else terms1
  List.intercalate [' '] terms2

/-- Modelled from the claim's words (the spec-side description of query-term
extraction): lowercase the text, whitespace-split, strip non-alphanumeric edge
characters, discard words of length ≤ 2 or in the stop-word list or already
collected, and join the survivors with spaces. -/
def claimedTokensAux (acc : List RStr) : List RStr → List RStr
  | [] => acc
  | word :: rest =>
    let cleaned := trimNonAlphanumeric word
    if cleaned.length ≤ 2 || STOP_WORDS.contains cleaned || acc.contains cleaned then
      claimedTokensAux acc rest
    else claimedTokensAux (acc ++ [cleaned]) rest

/-- The query string the claim says `extract_search_terms` produces. -/
def claimedSearchQuery (query : RStr) : RStr :=
  List.intercalate [' '] (claimedTokensAux [] (splitWhitespace (lowerStr query)))

/-- Whether the text is descending in the given integer projection (used to
state the newest-first ordering of claim C1). -/
def pairwiseDesc : List Int → Bool
  | [] => true
  | [_] => true
  | a :: b :: t => decide (b ≤ a) && pairwiseDesc (b :: t)

/-- The image contributed by one `captured_windows` row in
`fetch_images_for_captures`: present when the row has a path and the file is
readable. -/
def imageContrib (readFile : RStr → Option (List Nat)) (encode : List Nat → RStr)
    (r : WindowRow) : Option RStr :=
  (r.image_path.bind readFile).map encode

/-- The base64 image of the last processed readable row for a capture id
(used to state claim C10 about the overwrite behaviour of the map). -/
def lastReadableImage (rows : List WindowRow) (id : Int)
    (readFile : RStr → Option (List Nat)) (encode : List Nat → RStr) : Option RStr :=
  ((rows.filter (fun r => r.capture_id == id)).filterMap
    (imageContrib readFile encode)).getLast?

/-! ## Concrete example inputs used to exercise the theorems -/

/-- An example window row whose text matches the term `rust`, child of capture 1. -/
def exSearchW1 : WindowRow :=
  { capture_id := 1, window_name := some "Editor".toList, app_name := some "Code".toList
    text := some "Rust tutorial".toList, confidence := none, ocr_json := none
    image_base64 := none, image_path := none, browser_url := none }

/-- An example window row whose text matches the term `rust`, child of capture 2. -/
def exSearchW2 : WindowRow :=
  { capture_id := 2, window_name := some "Browser".toList, app_name := some "Chrome".toList
    text := some "rust again".toList, confidence := none, ocr_json := none
    image_base64 := none, image_path := none, browser_url := none }

/-- An example database with two matching captures whose table order equals
their id order but is the reverse of their recency order exposure: capture 1
at t=100, capture 2 at t=200. -/
def exSearchDB : DB :=
  { captures := [{ id := 1, frame_number := 0, timestamp_ms := 100 },
                 { id := 2, frame_number := 1, timestamp_ms := 200 }]
    windows := [exSearchW1, exSearchW2]
    next_capture_id := 3 }

/-- An example in-flight record for the persistence theorems. -/
def exRecord (name : String) : CapturedWindowRecord :=
  { window_name := name.toList, app_name := "app".toList, text := "t".toList
    confidence := none, ocr_json := none, image_base64 := none
    image_path := none, browser_url := none }

/-- An empty database. -/
def emptyDB : DB := { captures := [], windows := [], next_capture_id := 1 }

/-- An example two-window batch for the persistence theorems. -/
def exBatch : CaptureBatch :=
  { frame_number := 5, timestamp_ms := 999, windows := [exRecord "a", exRecord "b"] }

/-- A five-capture database used to exercise the pruning theorems. -/
def exPruneDB : DB :=
  { captures := [{ id := 1, frame_number := 0, timestamp_ms := 1 },
                 { id := 2, frame_number := 0, timestamp_ms := 2 },
                 { id := 3, frame_number := 0, timestamp_ms := 3 },
                 { id := 4, frame_number := 0, timestamp_ms := 4 },
                 { id := 5, frame_number := 0, timestamp_ms := 5 }]
    windows := []
    next_capture_id := 6 }

/-- An example OCR payload. -/
def exPayload : OcrPayload := { text := "hello".toList, confidence := some 1, json := none }

/-- An example window input with chosen external outcomes. -/
def exWinInput (writeOk : Bool) (ocr : Option OcrPayload) : WindowInput :=
  { window_name := "Win".toList, app_name := "App".toList, is_focused := false
    writeOk := writeOk, ocr := ocr }

/-! ## Helper lemmas -/

theorem insertBy_perm {α : Type} (le : α → α → Bool) (a : α) (l : List α) :
    List.Perm (insertBy le a l) (a :: l) := by
  induction l with
  | nil => simp [insertBy]
  | cons b t ih =>
    by_cases h : le a b
    · simp [insertBy, h]
    · simp only [insertBy, h, if_neg]
      exact ((ih.cons b).trans (List.Perm.swap a b t)).symm.symm

theorem sortBy_perm {α : Type} (le : α → α → Bool) (l : List α) :
    List.Perm (sortBy le l) l := by
  induction l with
  | nil => simp [sortBy]
  | cons a t ih => exact (insertBy_perm le a (sortBy le t)).trans (ih.cons a)

theorem btreeInsert_mem {α : Type} {k : Int} {v : α} {m : List (Int × α)} {p : Int × α} :
    p ∈ btreeInsert k v m → p = (k, v) ∨ p ∈ m := by
  induction m with
  | nil => intro h; simpa [btreeInsert] using h
  | cons q t ih =>
    intro h
    obtain ⟨k', v'⟩ := q
    by_cases h1 : k < k'
    · simp only [btreeInsert, if_pos h1] at h
      rcases List.mem_cons.mp h with h | h
      · exact Or.inl h
      · exact Or.inr h
    · by_cases h2 : k = k'
      · simp only [btreeInsert, if_neg h1, if_pos h2] at h
        rcases List.mem_cons.mp h with h | h
        · exact Or.inl h
        · exact Or.inr (List.mem_cons_of_mem _ h)
      · simp only [btreeInsert, if_neg h1, if_neg h2] at h
        rcases List.mem_cons.mp h with h | h
        · exact Or.inr (by simp [h])
        · rcases ih h with h' | h'
          · exact Or.inl h'
          · exact Or.inr (List.mem_cons_of_mem _ h')

theorem btreeInsert_key_mem {α : Type} {k : Int} {v : α} {m : List (Int × α)} {x : Int}
    (h : x ∈ (btreeInsert k v m).map Prod.fst) : x = k ∨ x ∈ m.map Prod.fst := by
  rcases List.mem_map.mp h with ⟨p, hp, rfl⟩
  rcases btreeInsert_mem hp with h' | h'
  · exact Or.inl (by rw [h'])
  · exact Or.inr (List.mem_map_of_mem _ h')

theorem btreeInsert_keys_pairwise {α : Type} {k : Int} {v : α} {m : List (Int × α)} :
    (m.map Prod.fst).Pairwise (· < ·) →
    ((btreeInsert k v m).map Prod.fst).Pairwise (· < ·) := by
  induction m with
  | nil => intro h; simp [btreeInsert]
  | cons q t ih =>
    intro h
    obtain ⟨k', v'⟩ := q
    simp only [List.map_cons, List.pairwise_cons] at h
    obtain ⟨hk', ht⟩ := h
    by_cases h1 : k < k'
    · simp only [btreeInsert, if_pos h1, List.map_cons, List.pairwise_cons]
      refine ⟨?_, hk', ht⟩
      intro x hx
      rcases List.mem_cons.mp hx with rfl | hx
      · exact h1
      · exact h1.trans (hk' x hx)
    · by_cases h2 : k = k'
      · simp only [btreeInsert, if_neg h1, if_pos h2, List.map_cons, List.pairwise_cons]
        exact ⟨fun x hx => h2 ▸ hk' x hx, ht⟩
      · simp only [btreeInsert, if_neg h1, if_neg h2, List.map_cons, List.pairwise_cons]
        refine ⟨?_, ih ht⟩
        intro x hx
        rcases btreeInsert_key_mem hx with rfl | hx
        · omega
        · exact hk' x hx

theorem btreeInsert_length_le {α : Type} (k : Int) (v : α) (m : List (Int × α)) :
    (btreeInsert k v m).length ≤ m.length + 1 := by
  induction m with
  | nil => simp [btreeInsert]
  | cons q t ih =>
    obtain ⟨k', v'⟩ := q
    by_cases h1 : k < k'
    · simp [btreeInsert, h1]
    · by_cases h2 : k = k'
      · simp [btreeInsert, h1, h2]
      · simp only [btreeInsert, if_neg h1, if_neg h2, List.length_cons]
        omega

theorem foldl_btreeInsert_mem {α β : Type} (key : α → Int) (val : α → β) :
    ∀ (rows : List α) (acc : List (Int × β)) (p : Int × β),
      p ∈ rows.foldl (fun a c => btreeInsert (key c) (val c) a) acc →
      p ∈ acc ∨ ∃ c ∈ rows, p = (key c, val c) := by
  intro rows
  induction rows with
  | nil => intro acc p h; exact Or.inl h
  | cons r rest ih =>
    intro acc p h
    rcases ih (btreeInsert (key r) (val r) acc) p h with h' | h'
    · rcases btreeInsert_mem h' with h'' | h''
      · exact Or.inr ⟨r, List.mem_cons_self _ _, h''⟩
      · exact Or.inl h''
    · rcases h' with ⟨c, hc, hp⟩
      exact Or.inr ⟨c, List.mem_cons_of_mem _ hc, hp⟩

theorem foldl_btreeInsert_pairwise {α β : Type} (key : α → Int) (val : α → β) :
    ∀ (rows : List α) (acc : List (Int × β)),
      (acc.map Prod.fst).Pairwise (· < ·) →
      ((rows.foldl (fun a c => btreeInsert (key c) (val c) a) acc).map Prod.fst).Pairwise
        (· < ·) := by
  intro rows
  induction rows with
  | nil => intro acc h; exact h
  | cons r rest ih => intro acc h; exact ih _ (btreeInsert_keys_pairwise h)

theorem foldl_btreeInsert_length {α β : Type} (key : α → Int) (val : α → β) :
    ∀ (rows : List α) (acc : List (Int × β)),
      (rows.foldl (fun a c => btreeInsert (key c) (val c) a) acc).length ≤
        acc.length + rows.length := by
  intro rows
  induction rows with
  | nil => intro acc; simp
  | cons r rest ih =>
    intro acc
    calc (List.foldl _ (btreeInsert (key r) (val r) acc) rest).length
        ≤ (btreeInsert (key r) (val r) acc).length + rest.length := ih _
      _ ≤ (acc.length + 1) + rest.length :=
          Nat.add_le_add_right (btreeInsert_length_le _ _ _) _
      _ = acc.length + (r :: rest).length := by simp only [List.length_cons]; omega

theorem lookupKey_hashInsert {α : Type} (k k' : Int) (v : α) (m : List (Int × α)) :
    lookupKey k (hashInsert k' v m) = if k = k' then some v else lookupKey k m := by
  induction m with
  | nil => simp [hashInsert, lookupKey]
  | cons q t ih =>
    obtain ⟨k'', v''⟩ := q
    by_cases h1 : k' = k''
    · subst h1
      by_cases h2 : k = k' <;> simp [hashInsert, lookupKey, h2]
    · by_cases h2 : k = k''
      · subst h2
        simp only [hashInsert, if_neg h1, lookupKey, if_pos rfl]
        have : ¬ k = k' := fun h => h1 (h ▸ rfl)
        simp [this]
      · simp [hashInsert, lookupKey, h1, h2, ih]

theorem hashInsert_key_mem {α : Type} {k k' : Int} {v : α} {m : List (Int × α)} :
    k' ∈ (hashInsert k v m).map Prod.fst → k' = k ∨ k' ∈ m.map Prod.fst := by
  induction m with
  | nil => intro h; simpa [hashInsert] using h
  | cons q t ih =>
    intro h
    obtain ⟨k'', v''⟩ := q
    by_cases h1 : k = k''
    · simp only [hashInsert, if_pos h1, List.map_cons] at h
      rcases List.mem_cons.mp h with rfl | h
      · exact Or.inl rfl
      · exact Or.inr (List.mem_cons_of_mem _ h)
    · simp only [hashInsert, if_neg h1, List.map_cons] at h
      rcases List.mem_cons.mp h with rfl | h
      · exact Or.inr (by simp)
      · rcases ih h with h' | h'
        · exact Or.inl h'
        · exact Or.inr (List.mem_cons_of_mem _ h')

theorem hashInsert_keys_nodup {α : Type} {k : Int} {v : α} {m : List (Int × α)} :
    (m.map Prod.fst).Nodup → ((hashInsert k v m).map Prod.fst).Nodup := by
  induction m with
  | nil => intro h; simp [hashInsert]
  | cons q t ih =>
    intro h
    obtain ⟨k'', v''⟩ := q
    simp only [List.map_cons, List.nodup_cons] at h
    obtain ⟨hk'', ht⟩ := h
    by_cases h1 : k = k''
    · subst h1
      simp only [hashInsert, eq_self_iff_true, if_true, List.map_cons, List.nodup_cons]
      exact ⟨hk'', ht⟩
    · simp only [hashInsert, if_neg h1, List.map_cons, List.nodup_cons]
      refine ⟨?_, ih ht⟩
      intro hmem
      rcases hashInsert_key_mem hmem with h' | h'
      · exact h1 (h'.symm)
      · exact hk'' h'

theorem Backoff.inv_new (base max : Nat) : (Backoff.new base max).Inv := by
  refine ⟨Nat.le_max_right _ _, Nat.le_refl _, Nat.le_max_right _ _⟩

theorem Backoff.apply_base_eq (b : Backoff) (op : BackoffOp) : (b.apply op).base = b.base := by
  cases op with
  | record d => cases d <;> rfl
  | onError => rfl

theorem Backoff.apply_max_eq (b : Backoff) (op : BackoffOp) : (b.apply op).max = b.max := by
  cases op with
  | record d => cases d <;> rfl
  | onError => rfl

theorem Backoff.inv_apply {b : Backoff} (h : b.Inv) (op : BackoffOp) : (b.apply op).Inv := by
  obtain ⟨h1, h2, h3⟩ := h
  cases op with
  | record d =>
    cases d with
    | firstFrame =>
      simp only [Backoff.apply, Backoff.record, Backoff.Inv]
      exact ⟨h1, Nat.le_refl _, h1⟩
    | significant d s =>
      simp only [Backoff.apply, Backoff.record, Backoff.Inv]
      exact ⟨h1, Nat.le_refl _, h1⟩
    | insignificant d s =>
      simp only [Backoff.apply, Backoff.record, Backoff.Inv]
      refine ⟨h1, ?_, Nat.min_le_right _ _⟩
      have hc : b.current ≤ (3 * b.current + 1) / 2 := by omega
      exact Nat.le_min.mpr ⟨Nat.le_trans h2 hc, h1⟩
  | onError =>
    simp only [Backoff.apply, Backoff.on_error, Backoff.Inv]
    refine ⟨h1, ?_, Nat.min_le_right _ _⟩
    exact Nat.le_min.mpr ⟨by omega, h1⟩

theorem Backoff.inv_applyOps {b : Backoff} (h : b.Inv) (ops : List BackoffOp) :
    (b.applyOps ops).Inv := by
  induction ops generalizing b with
  | nil => exact h
  | cons op rest ih => exact ih (Backoff.inv_apply h op)

theorem countCommitted_cons (t : TickOutcome) (rest : List TickOutcome) :
    countCommitted (t :: rest) =
      countCommitted rest + (if t.isCommitted then 1 else 0) := by
  simp [countCommitted, List.countP_cons]

theorem loopRun_persisted (fn : Nat) (ticks : List TickOutcome) (hfn : fn ≤ U64_MAX) :
    (loopRun fn ticks).2 =
      (List.range (countCommitted ticks)).map (fun i => min (fn + i) U64_MAX) := by
  induction ticks generalizing fn with
  | nil => simp [loopRun, countCommitted]
  | cons t rest ih =>
    cases t with
    | committed =>
      have hfn' : saturating_add_one fn ≤ U64_MAX := Nat.min_le_right _ _
      have hrec := ih (saturating_add_one fn) hfn'
      have hcount : countCommitted (.committed :: rest) = countCommitted rest + 1 := by
        simp [countCommitted_cons, TickOutcome.isCommitted]
      have hstep : (loopRun fn (.committed :: rest)).2
          = fn :: (loopRun (saturating_add_one fn) rest).2 := rfl
      rw [hstep, hrec, hcount, List.range_succ_eq_map, List.map_cons, List.map_map]
      simp only [List.cons.injEq]
      constructor
      · rw [Nat.add_zero, Nat.min_def, if_pos hfn]
      · apply List.map_congr_left
        intro i _
        simp only [Function.comp, saturating_add_one, Nat.min_def]
        split_ifs <;> omega
    | platformError =>
      have hcount : countCommitted (.platformError :: rest) = countCommitted rest := by
        simp [countCommitted_cons, TickOutcome.isCommitted]
      simpa [loopRun, loopStep, hcount] using ih fn hfn
    | insignificantFrame =>
      have hcount : countCommitted (.insignificantFrame :: rest) = countCommitted rest := by
        simp [countCommitted_cons, TickOutcome.isCommitted]
      simpa [loopRun, loopStep, hcount] using ih fn hfn
    | persistError =>
      have hcount : countCommitted (.persistError :: rest) = countCommitted rest := by
        simp [countCommitted_cons, TickOutcome.isCommitted]
      simpa [loopRun, loopStep, hcount] using ih fn hfn

theorem loopRun_final_le (fn : Nat) (ticks : List TickOutcome) (hfn : fn ≤ U64_MAX) :
    (loopRun fn ticks).1 ≤ U64_MAX := by
  induction ticks generalizing fn with
  | nil => exact hfn
  | cons t rest ih =>
    cases t with
    | committed => exact ih _ (Nat.min_le_right _ _)
    | platformError => exact ih _ hfn
    | insignificantFrame => exact ih _ hfn
    | persistError => exact ih _ hfn

theorem loopRun_at_max (ticks : List TickOutcome) :
    (loopRun U64_MAX ticks).1 = U64_MAX := by
  induction ticks with
  | nil => rfl
  | cons t rest ih =>
    cases t with
    | committed =>
      have h : saturating_add_one U64_MAX = U64_MAX := Nat.min_eq_right (Nat.le_succ _)
      simpa [loopRun, loopStep, h] using ih
    | platformError => simpa [loopRun, loopStep] using ih
    | insignificantFrame => simpa [loopRun, loopStep] using ih
    | persistError => simpa [loopRun, loopStep] using ih

theorem extractQuoted_eq_nil (s : List Char) :
    ∀ (inq : Bool) (cur : List Char), (∀ c ∈ s, c ≠ '"' ∧ c ≠ '\'') →
      extractQuoted s inq cur = [] := by
  induction s with
  | nil => intro inq cur h; rfl
  | cons c rest ih =>
    intro inq cur h
    obtain ⟨hc1, hc2⟩ := h c (List.mem_cons_self _ _)
    have hrest : ∀ c' ∈ rest, c' ≠ '"' ∧ c' ≠ '\'' :=
      fun c' hc' => h c' (List.mem_cons_of_mem _ hc')
    have hcb : (c == '"' || c == '\'') = false := by
      simp [hc1, hc2]
    simp only [extractQuoted, hcb, Bool.false_eq_true, if_false]
    cases inq <;> simp [ih _ _ hrest]

theorem collectWords_eq_claimedTokensAux (ws : List RStr) :
    ∀ acc, collectWords acc ws = claimedTokensAux acc ws := by
  induction ws with
  | nil => intro acc; rfl
  | cons w rest ih =>
    intro acc
    by_cases hl : (trimNonAlphanumeric w).length ≤ 2 <;>
      by_cases hs : trimNonAlphanumeric w ∈ STOP_WORDS <;>
      by_cases hm : trimNonAlphanumeric w ∈ acc <;>
      simp [collectWords, claimedTokensAux, hs, hm, hl, ih]

theorem processWindowsFrom_eq (windows : List WindowInput) (fn : Nat) (ts : Int) (dir : RStr) :
    ∀ idx, idx + windows.length ≤ U64_MAX + 1 →
      processWindowsFrom windows fn ts dir idx =
        (List.enumFrom idx windows).map (fun p => processWindow p.2 fn ts dir p.1) := by
  induction windows with
  | nil => intro idx h; rfl
  | cons w rest ih =>
    intro idx h
    simp only [processWindowsFrom, List.enumFrom, List.map_cons, List.cons.injEq]
    refine ⟨trivial, ?_⟩
    cases rest with
    | nil => rfl
    | cons r t =>
      have hidx : idx < U64_MAX := by
        simp only [List.length_cons] at h
        omega
      have hsat : saturating_add_one idx = idx + 1 := by
        unfold saturating_add_one
        rw [Nat.min_def, if_pos (by omega)]
      rw [hsat]
      apply ih
      simp only [List.length_cons] at h ⊢
      omega

theorem fetchFold_lookup (readFile : RStr → Option (List Nat)) (encode : List Nat → RStr) :
    ∀ (rows : List WindowRow) (acc : List (Int × RStr)) (id : Int),
      lookupKey id (rows.foldl
        (fun images row =>
          match row.image_path with
          | some path =>
            match readFile path with
            | some bytes => hashInsert row.capture_id (encode bytes) images
            | none => images
          | none => images)
        acc) =
      (match ((rows.filter (fun r => r.capture_id == id)).filterMap
          (imageContrib readFile encode)).getLast? with
       | some v => some v
       | none => lookupKey id acc) := by
  intro rows
  induction rows with
  | nil => intro acc id; simp
  | cons r rest ih =>
    intro acc id
    simp only [List.foldl_cons]
    rw [ih]
    rcases hp : r.image_path with _ | p
    · -- no image path: the row contributes nothing and leaves the map unchanged
      have hcontrib : imageContrib readFile encode r = none := by
        simp [imageContrib, hp]
      cases hc : r.capture_id == id <;>
        simp [List.filter_cons, hc, List.filterMap_cons, hcontrib, hp]
    · rcases hr : readFile p with _ | bytes
      · -- unreadable file: the row contributes nothing
        have hcontrib : imageContrib readFile encode r = none := by
          simp [imageContrib, hp, hr]
        cases hc : r.capture_id == id <;>
          simp [List.filter_cons, hc, List.filterMap_cons, hcontrib, hp, hr]
      · -- readable: the row overwrites the entry for its capture id
        have hcontrib : imageContrib readFile encode r = some (encode bytes) := by
          simp [imageContrib, hp, hr]
        cases hc : r.capture_id == id
        · -- row belongs to a different capture id
          have hne : ¬ id = r.capture_id := by
            intro hcontra
            rw [hcontra] at hc
            simp at hc
          simp [List.filter_cons, hc, hp, hr, lookupKey_hashInsert, hne]
        · -- row belongs to this capture id
          have heq : r.capture_id = id := by
            simpa using hc
          simp only [List.filter_cons, hc, if_true, List.filterMap_cons, hcontrib, hp, hr]
          rcases hLast : ((rest.filter (fun r => r.capture_id == id)).filterMap
              (imageContrib readFile encode)).getLast? with _ | v
          · have hnilcase :
                (rest.filter (fun r => r.capture_id == id)).filterMap
                  (imageContrib readFile encode) = [] := by
              rwa [← List.getLast?_eq_none_iff]
            simp [hnilcase, hLast, lookupKey_hashInsert, heq]
          · have hcons :
                ((encode bytes) :: (rest.filter (fun r => r.capture_id == id)).filterMap
                  (imageContrib readFile encode)).getLast? = some v := by
              rcases hnil : (rest.filter (fun r => r.capture_id == id)).filterMap
                  (imageContrib readFile encode) with _ | ⟨x, xs⟩
              · rw [hnil] at hLast
                simp at hLast
              · rw [hnil] at hLast
                rw [hnil, List.getLast?_cons_cons, hLast]
            simp [hcons, hLast]

theorem u64ToI64_of_lt {n : Nat} (h : n < 2 ^ 63) : u64ToI64 n = (n : Int) := by
  unfold u64ToI64
  rw [if_pos h]

theorem retentionStage_mem {days now_ms : Nat} {db : DB} {c : CaptureRow}
    (hc : c ∈ (retentionStage (some days) now_ms db).captures) :
    c ∈ db.captures ∧ ¬ c.timestamp_ms < pruneCutoff now_ms days := by
  simp only [retentionStage, deleteCapturesWhere, List.mem_filter] at hc
  obtain ⟨h1, h2⟩ := hc
  refine ⟨h1, ?_⟩
  simpa using h2

theorem retentionStage_subset {r : Option Nat} {now_ms : Nat} {db : DB} {c : CaptureRow}
    (hc : c ∈ (retentionStage r now_ms db).captures) : c ∈ db.captures := by
  cases r with
  | none => exact hc
  | some days => exact (retentionStage_mem hc).1

theorem capStage_subset {m : Option Nat} {db : DB} {c : CaptureRow}
    (hc : c ∈ (capStage m db).captures) : c ∈ db.captures := by
  cases m with
  | none => exact hc
  | some maxc =>
    simp only [capStage] at hc
    by_cases hcond : u64ToI64 maxc < ((db.captures.length : Int))
    · rw [if_pos hcond] at hc
      simp only [deleteCaptures, List.mem_filter] at hc
      exact hc.1
    · rwa [if_neg hcond] at hc

theorem retentionStage_nodup {r : Option Nat} {now_ms : Nat} {db : DB}
    (wf : (db.captures.map (fun c => c.id)).Nodup) :
    ((retentionStage r now_ms db).captures.map (fun c => c.id)).Nodup := by
  cases r with
  | none => exact wf
  | some days =>
    simp only [retentionStage, deleteCapturesWhere]
    exact ((List.filter_sublist _).map _).nodup wf

theorem capStage_perm_of_gt {M : Nat} {db1 : DB} (hM : M < 2 ^ 63)
    (wf : (db1.captures.map (fun c => c.id)).Nodup)
    (hgt : M < db1.captures.length) :
    List.Perm (capStage (some M) db1).captures
      ((sortBy (fun a b => decide (a.timestamp_ms ≤ b.timestamp_ms)) db1.captures).drop
        (db1.captures.length - M)) := by
  have hcond : u64ToI64 M < ((db1.captures.length : Int)) := by
    rw [u64ToI64_of_lt hM]
    exact_mod_cast hgt
  have hk : (((db1.captures.length : Int)) - u64ToI64 M).toNat = db1.captures.length - M := by
    rw [u64ToI64_of_lt hM]
    omega
  have hstage : (capStage (some M) db1).captures =
      db1.captures.filter
        (fun c => !((oldestIds db1 (db1.captures.length - M)).contains c.id)) := by
    simp only [capStage, if_pos hcond, deleteCaptures, hk]
  rw [hstage]
  have hperm : List.Perm db1.captures
      (sortBy (fun a b => decide (a.timestamp_ms ≤ b.timestamp_ms)) db1.captures) :=
    (sortBy_perm _ _).symm
  have hnodup_sorted :
      (((sortBy (fun a b => decide (a.timestamp_ms ≤ b.timestamp_ms)) db1.captures).map
        (fun c => c.id)).Nodup) :=
    (hperm.map (fun c => c.id)).nodup_iff.mp wf
  have hfilter :
      List.Perm
        (db1.captures.filter
          (fun c => !((oldestIds db1 (db1.captures.length - M)).contains c.id)))
        ((sortBy (fun a b => decide (a.timestamp_ms ≤ b.timestamp_ms)) db1.captures).filter
          (fun c => !((oldestIds db1 (db1.captures.length - M)).contains c.id))) :=
    hperm.filter _
  refine hfilter.trans ?_
  set sorted := sortBy (fun a b => decide (a.timestamp_ms ≤ b.timestamp_ms)) db1.captures
    with hsorted
  set k := db1.captures.length - M with hkdef
  have hsplit := List.take_append_drop k sorted
  have hids : oldestIds db1 k = (sorted.take k).map (fun c => c.id) := by
    simp [oldestIds, hsorted]
  have htakefilter :
      (sorted.take k).filter (fun c => !((oldestIds db1 k).contains c.id)) = [] := by
    rw [List.filter_eq_nil_iff]
    intro c hc
    have hmem : c.id ∈ oldestIds db1 k := by
      rw [hids]
      exact List.mem_map_of_mem _ hc
    simp [hmem]
  have hdropfilter :
      (sorted.drop k).filter (fun c => !((oldestIds db1 k).contains c.id)) =
        sorted.drop k := by
    rw [List.filter_eq_self]
    intro c hc
    have hnotmem : c.id ∉ oldestIds db1 k := by
      rw [hids]
      intro hmem
      have hmap : (sorted.map (fun c => c.id)) =
          (sorted.take k).map (fun c => c.id) ++ (sorted.drop k).map (fun c => c.id) := by
        rw [← List.map_append, hsplit]
      rw [hmap] at hnodup_sorted
      exact (List.nodup_append.mp hnodup_sorted).2.2 hmem (List.mem_map_of_mem _ hc)
    simp [hnotmem]
  have hcalc : sorted.filter (fun c => !((oldestIds db1 k).contains c.id)) =
      sorted.drop k := by
    conv_lhs => rw [← hsplit]
    rw [List.filter_append, htakefilter, hdropfilter, List.nil_append]
  rw [hcalc]

theorem capStage_length_of_gt {M : Nat} {db1 : DB} (hM : M < 2 ^ 63)
    (wf : (db1.captures.map (fun c => c.id)).Nodup)
    (hgt : M < db1.captures.length) :
    (capStage (some M) db1).captures.length = M := by
  have hlen := (capStage_perm_of_gt hM wf hgt).length_eq
  have hslen : (sortBy (fun a b => decide (a.timestamp_ms ≤ b.timestamp_ms))
      db1.captures).length = db1.captures.length := (sortBy_perm _ _).length_eq
  rw [hlen, List.length_drop, hslen]
  omega

theorem capStage_length_le {M : Nat} {db1 : DB} (hM : M < 2 ^ 63)
    (wf : (db1.captures.map (fun c => c.id)).Nodup) :
    (capStage (some M) db1).captures.length ≤ M := by
  by_cases hgt : M < db1.captures.length
  · rw [capStage_length_of_gt hM wf hgt]
  · have hcond : ¬ (u64ToI64 M < ((db1.captures.length : Int))) := by
      rw [u64ToI64_of_lt hM]
      omega
    simp only [capStage, if_neg hcond]
    omega

theorem deleteCapturesWhere_eq_self {db : DB} {p : CaptureRow → Bool}
    (h : ∀ c ∈ db.captures, p c = false) : deleteCapturesWhere db p = db := by
  have hfilter : db.captures.filter (fun c => !(p c)) = db.captures := by
    rw [List.filter_eq_self]
    intro c hc
    simp [h c hc]
  have hnil : db.captures.filter p = [] := by
    rw [List.filter_eq_nil_iff]
    intro c hc
    simp [h c hc]
  simp only [deleteCapturesWhere, hfilter, hnil]
  simp

theorem retentionStage_noop {r : Option Nat} {now_ms : Nat} {db : DB}
    (h : ∀ days, r = some days →
      ∀ c ∈ db.captures, ¬ c.timestamp_ms < pruneCutoff now_ms days) :
    retentionStage r now_ms db = db := by
  cases r with
  | none => rfl
  | some days =>
    apply deleteCapturesWhere_eq_self
    intro c hc
    simp [h days rfl c hc]

theorem capStage_noop {m : Option Nat} {db : DB}
    (h : ∀ M, m = some M → ¬ (u64ToI64 M < ((db.captures.length : Int)))) :
    capStage m db = db := by
  cases m with
  | none => rfl
  | some M => simp only [capStage, if_neg (h M rfl)]

theorem prune_idem (r m : Option Nat) (now_ms : Nat) (db : DB)
    (wf : (db.captures.map (fun c => c.id)).Nodup)
    (hm : ∀ M, m = some M → M < 2 ^ 63) :
    prune r m now_ms (prune r m now_ms db) = prune r m now_ms db := by
  unfold prune
  have hA : retentionStage r now_ms (capStage m (retentionStage r now_ms db)) =
      capStage m (retentionStage r now_ms db) := by
    apply retentionStage_noop
    intro days hdays c hc
    have hc1 := capStage_subset hc
    rw [hdays] at hc1
    exact (retentionStage_mem hc1).2
  rw [hA]
  apply capStage_noop
  intro M hM'
  have hMlt := hm M hM'
  have hlen : (capStage m (retentionStage r now_ms db)).captures.length ≤ M := by
    rw [hM']
    exact capStage_length_le hMlt (retentionStage_nodup wf)
  rw [u64ToI64_of_lt hMlt]
  omega

theorem Backoff.applyOps_base (b : Backoff) (ops : List BackoffOp) :
    (b.applyOps ops).base = b.base := by
  induction ops generalizing b with
  | nil => rfl
  | cons op rest ih =>
    show ((b.apply op).applyOps rest).base = b.base
    rw [ih (b.apply op), Backoff.apply_base_eq]

theorem Backoff.applyOps_max (b : Backoff) (ops : List BackoffOp) :
    (b.applyOps ops).max = b.max := by
  induction ops generalizing b with
  | nil => rfl
  | cons op rest ih =>
    show ((b.apply op).applyOps rest).max = b.max
    rw [ih (b.apply op), Backoff.apply_max_eq]

theorem fetchFold_nodup (readFile : RStr → Option (List Nat)) (encode : List Nat → RStr) :
    ∀ (rows : List WindowRow) (acc : List (Int × RStr)),
      (acc.map Prod.fst).Nodup →
      ((rows.foldl
        (fun images row =>
          match row.image_path with
          | some path =>
            match readFile path with
            | some bytes => hashInsert row.capture_id (encode bytes) images
            | none => images
          | none => images)
        acc).map Prod.fst).Nodup := by
  intro rows
  induction rows with
  | nil => intro acc h; exact h
  | cons r rest ih =>
    intro acc h
    simp only [List.foldl_cons]
    apply ih
    rcases hp : r.image_path with _ | p
    · simpa [hp] using h
    · rcases hr : readFile p with _ | bytes
      · simpa [hp, hr] using h
      · simp only [hp, hr]
        exact hashInsert_keys_nodup h

theorem insertBy_pairwise {α : Type} (r : α → α → Bool)
    (htotal : ∀ a b, r a b = true ∨ r b a = true)
    (htrans : ∀ a b c, r a b = true → r b c = true → r a c = true) :
    ∀ (a : α) (l : List α), l.Pairwise (fun x y => r x y = true) →
      (insertBy r a l).Pairwise (fun x y => r x y = true) := by
  intro a l
  induction l with
  | nil => intro h; simp [insertBy]
  | cons b t ih =>
    intro h
    rcases List.pairwise_cons.mp h with ⟨hb, ht⟩
    by_cases hab : r a b = true
    · simp only [insertBy, if_pos hab]
      refine List.pairwise_cons.mpr ⟨?_, h⟩
      intro x hx
      rcases List.mem_cons.mp hx with rfl | hx
      · exact hab
      · exact htrans a b x hab (hb x hx)
    · simp only [insertBy, if_neg hab]
      refine List.pairwise_cons.mpr ⟨?_, ih ht⟩
      intro x hx
      rcases List.mem_cons.mp ((insertBy_perm r a t).mem_iff.mp hx) with h' | h'
      · subst h'
        rcases htotal x b with h'' | h''
        · exact absurd h'' hab
        · exact h''
      · exact hb x h'

theorem sortBy_pairwise {α : Type} (r : α → α → Bool)
    (htotal : ∀ a b, r a b = true ∨ r b a = true)
    (htrans : ∀ a b c, r a b = true → r b c = true → r a c = true) :
    ∀ l : List α, (sortBy r l).Pairwise (fun x y => r x y = true) := by
  intro l
  induction l with
  | nil => simp [sortBy]
  | cons a t ih => exact insertBy_pairwise r htotal htrans a (sortBy r t) ih

theorem btreeInsert_self {α : Type} (k : Int) (v : α) (m : List (Int × α)) :
    (k, v) ∈ btreeInsert k v m := by
  induction m with
  | nil => simp [btreeInsert]
  | cons q t ih =>
    obtain ⟨k', v'⟩ := q
    by_cases h1 : k < k'
    · simp [btreeInsert, h1]
    · by_cases h2 : k = k'
      · simp [btreeInsert, h1, h2]
      · simp only [btreeInsert, if_neg h1, if_neg h2]
        exact List.mem_cons_of_mem _ ih

theorem btreeInsert_preserve {α : Type} {k : Int} {v : α} {m : List (Int × α)}
    {p : Int × α} (hp : p ∈ m) (hne : p.1 ≠ k) : p ∈ btreeInsert k v m := by
  induction m with
  | nil => exact absurd hp (List.not_mem_nil p)
  | cons q t ih =>
    obtain ⟨k', v'⟩ := q
    by_cases h1 : k < k'
    · simp only [btreeInsert, if_pos h1]
      exact List.mem_cons_of_mem _ hp
    · by_cases h2 : k = k'
      · simp only [btreeInsert, if_neg h1, if_pos h2]
        rcases List.mem_cons.mp hp with rfl | hp'
        · exact absurd h2.symm hne
        · exact List.mem_cons_of_mem _ hp'
      · simp only [btreeInsert, if_neg h1, if_neg h2]
        rcases List.mem_cons.mp hp with rfl | hp'
        · exact List.mem_cons_self _ _
        · exact List.mem_cons_of_mem _ (ih hp')

theorem foldl_btreeInsert_preserve {α β : Type} (key : α → Int) (val : α → β) :
    ∀ (rows : List α) (acc : List (Int × β)) (p : Int × β),
      p ∈ acc → p.1 ∉ rows.map key →
      p ∈ rows.foldl (fun a c => btreeInsert (key c) (val c) a) acc := by
  intro rows
  induction rows with
  | nil => intro acc p hp _; exact hp
  | cons r rest ih =>
    intro acc p hp hkey
    simp only [List.map_cons, List.mem_cons, not_or] at hkey
    obtain ⟨hkr, hkrest⟩ := hkey
    simp only [List.foldl_cons]
    exact ih _ p (btreeInsert_preserve hp hkr) hkrest

theorem foldl_btreeInsert_complete {α β : Type} (key : α → Int) (val : α → β) :
    ∀ (rows : List α) (acc : List (Int × β)),
      (rows.map key).Nodup →
      ∀ c ∈ rows, (key c, val c) ∈ rows.foldl (fun a c => btreeInsert (key c) (val c) a) acc := by
  intro rows
  induction rows with
  | nil => intro acc _ c hc; exact absurd hc (List.not_mem_nil c)
  | cons r rest ih =>
    intro acc hnodup c hc
    simp only [List.map_cons, List.nodup_cons] at hnodup
    obtain ⟨hkr, hrest⟩ := hnodup
    simp only [List.foldl_cons]
    rcases List.mem_cons.mp hc with rfl | hc'
    · exact foldl_btreeInsert_preserve key val rest _ _ (btreeInsert_self _ _ _) hkr
    · exact ih _ hrest c hc'

theorem btreeInsert_length_of_not_mem {α : Type} {k : Int} {v : α} {m : List (Int × α)}
    (hk : k ∉ m.map Prod.fst) : (btreeInsert k v m).length = m.length + 1 := by
  induction m with
  | nil => simp [btreeInsert]
  | cons q t ih =>
    obtain ⟨k', v'⟩ := q
    simp only [List.map_cons, List.mem_cons, not_or] at hk
    obtain ⟨hk1, hk2⟩ := hk
    by_cases h1 : k < k'
    · simp [btreeInsert, h1]
    · by_cases h2 : k = k'
      · exact absurd h2 hk1
      · simp only [btreeInsert, if_neg h1, if_neg h2, List.length_cons, ih hk2]

theorem foldl_btreeInsert_length_eq {α β : Type} (key : α → Int) (val : α → β) :
    ∀ (rows : List α) (acc : List (Int × β)),
      (rows.map key).Nodup →
      (∀ c ∈ rows, key c ∉ acc.map Prod.fst) →
      (rows.foldl (fun a c => btreeInsert (key c) (val c) a) acc).length =
        acc.length + rows.length := by
  intro rows
  induction rows with
  | nil => intro acc _ _; simp
  | cons r rest ih =>
    intro acc hnodup hdisj
    simp only [List.map_cons, List.nodup_cons] at hnodup
    obtain ⟨hkr, hrest⟩ := hnodup
    have hracc : key r ∉ acc.map Prod.fst := hdisj r (List.mem_cons_self _ _)
    have hdisj' : ∀ c ∈ rest, key c ∉ (btreeInsert (key r) (val r) acc).map Prod.fst := by
      intro c hc hmem
      rcases btreeInsert_key_mem hmem with h | h
      · exact hkr (h ▸ List.mem_map_of_mem key hc)
      · exact hdisj c (List.mem_cons_of_mem _ hc) h
    simp only [List.foldl_cons]
    rw [ih _ hrest hdisj', btreeInsert_length_of_not_mem hracc, List.length_cons]
    omega

/-! ## Claim theorems -/

/-- C2: the claim states `persist_batch` writes the parent capture row and all
child window rows atomically, the database being unchanged on error.  The
source acquires a plain pooled connection and issues the parent and child
`INSERT`s individually, with no transaction, so a failing child insert leaves
the parent row and the earlier child rows in place.  This theorem evaluates
the embedding at the failing input: a two-window batch whose second child
insert fails returns an error, yet the database now holds the parent capture
row and exactly one of its two window rows. -/
theorem claim_C2_partial_write :
    (persist_batch none none 0 emptyDB exBatch true (fun k => k == 0)).2 = false ∧
    (persist_batch none none 0 emptyDB exBatch true (fun k => k == 0)).1 ≠ emptyDB ∧
    ((persist_batch none none 0 emptyDB exBatch true (fun k => k == 0)).1).captures.length =
      1 ∧
    ((persist_batch none none 0 emptyDB exBatch true (fun k => k == 0)).1).windows.length =
      1 ∧
    exBatch.windows.length = 2 := by decide

/-- C7: OCR processing produces exactly one record per window, in input order,
and never aborts; the record of the window at position `k` uses file-name
index `k` (so `idx` increments by one per window regardless of outcome); a
window whose image write fails gets a record with nulls for image_path, text,
confidence and ocr_json; a window whose write succeeds but whose OCR fails
gets empty text, null confidence and ocr_json, and a set image_path.  The
hypothesis holds for every Rust slice, whose length is at most `usize::MAX`. -/
theorem claim_C7 (windows : List WindowInput) (frame_number : Nat) (timestamp_ms : Int)
    (image_dir : RStr) (hlen : windows.length ≤ U64_MAX) :
    process_windows_for_ocr windows frame_number timestamp_ms image_dir =
      windows.enum.map
        (fun p => processWindow p.2 frame_number timestamp_ms image_dir p.1) ∧
    (process_windows_for_ocr windows frame_number timestamp_ms image_dir).length =
      windows.length ∧
    (∀ w idx, w.writeOk = false →
      processWindow w frame_number timestamp_ms image_dir idx =
        { window_name := w.window_name, app_name := w.app_name, text := []
          confidence := none, ocr_json := none, image_base64 := none
          image_path := none, browser_url := none }) ∧
    (∀ w idx, w.writeOk = true → w.ocr = none →
      (processWindow w frame_number timestamp_ms image_dir idx).text = [] ∧
      (processWindow w frame_number timestamp_ms image_dir idx).confidence = none ∧
      (processWindow w frame_number timestamp_ms image_dir idx).ocr_json = none ∧
      (processWindow w frame_number timestamp_ms image_dir idx).image_path =
        some (mkImagePath image_dir timestamp_ms frame_number idx)) := by
  have hmain : process_windows_for_ocr windows frame_number timestamp_ms image_dir =
      windows.enum.map
        (fun p => processWindow p.2 frame_number timestamp_ms image_dir p.1) := by
    show processWindowsFrom windows frame_number timestamp_ms image_dir 0 = _
    rw [processWindowsFrom_eq windows frame_number timestamp_ms image_dir 0 (by omega)]
    rfl
  refine ⟨hmain, ?_, ?_, ?_⟩
  · rw [hmain, List.length_map, List.enum_length]
  · intro w idx hw
    simp [processWindow, hw]
  · intro w idx hw hocr
    simp [processWindow, hw, hocr]

/-- Witness for C7 at a concrete two-window input (one full success, one write
failure). -/
theorem claim_C7_witness :
    [exWinInput true (some exPayload), exWinInput false none].length ≤ U64_MAX ∧
    process_windows_for_ocr [exWinInput true (some exPayload), exWinInput false none] 7
        1234 ("img".toList) =
      [exWinInput true (some exPayload), exWinInput false none].enum.map
        (fun p => processWindow p.2 7 1234 ("img".toList) p.1) :=
  ⟨by decide,
    (claim_C7 [exWinInput true (some exPayload), exWinInput false none] 7 1234
      ("img".toList) (by decide)).1⟩

/-- C8 counterexample: the claim says a text consisting only of stop-words
yields an empty query string, but `extract_search_terms` has a permissive
fallback that, when no token survives, takes the first edge-stripped word of
length ≥ 3 even if it is a stop word: on `"what did"` it returns `"what"`,
not the empty string the claim prescribes. -/
theorem claim_C8_counterexample :
    extract_search_terms ("what did".toList) = "what".toList ∧
    claimedSearchQuery ("what did".toList) = [] ∧
    extract_search_terms ("what did".toList) ≠ claimedSearchQuery ("what did".toList) := by
  refine ⟨by decide, by decide, by decide⟩

/-- C8 amended: for texts without quote characters (quoted substrings are
extracted as exact terms first), extraction produces exactly the tokens the
claim describes whenever at least one token survives; when none survives, the
query string is instead the first edge-stripped word of length ≥ 3 (the
permissive fallback), not the empty string. -/
theorem claim_C8_amended (query : RStr) (hq : ∀ c ∈ query, c ≠ '"' ∧ c ≠ '\'') :
    (claimedTokensAux [] (splitWhitespace (lowerStr query)) ≠ [] →
      extract_search_terms query = claimedSearchQuery query) ∧
    (claimedTokensAux [] (splitWhitespace (lowerStr query)) = [] →
      extract_search_terms query =
        List.intercalate [' '] (fallbackTerm (splitWhitespace (lowerStr query)))) := by
  have hq0 : extractQuoted query false [] = [] := extractQuoted_eq_nil query false [] hq
  have hcw : collectWords [] (splitWhitespace (lowerStr query)) =
      claimedTokensAux [] (splitWhitespace (lowerStr query)) :=
    collectWords_eq_claimedTokensAux _ []
  constructor
  · intro hne
    simp [extract_search_terms, hq0, hcw, claimedSearchQuery, hne]
  · intro hnil
    simp [extract_search_terms, hq0, hcw, claimedSearchQuery, hnil]

/-- Witness for C8 at a concrete quote-free text with surviving tokens. -/
theorem claim_C8_amended_witness :
    (∀ c ∈ ("rust tutorial".toList : RStr), c ≠ '"' ∧ c ≠ '\'') ∧
    extract_search_terms ("rust tutorial".toList) =
      claimedSearchQuery ("rust tutorial".toList) :=
  ⟨by decide, (claim_C8_amended ("rust tutorial".toList) (by decide)).1 (by decide)⟩

/-- C10: `fetch_images_for_captures` returns a map with at most one base64
image per capture id; for each id the value is the image of the last processed
row for that id that has a non-null `image_path` whose file is readable (later
readable rows overwrite earlier ones), and rows with a null path or an
unreadable file contribute no entry. -/
theorem claim_C10 (db : DB) (ids : List Int) (readFile : RStr → Option (List Nat))
    (encode : List Nat → RStr) :
    ((fetch_images_for_captures db ids readFile encode).map Prod.fst).Nodup ∧
    (∀ id, lookupKey id (fetch_images_for_captures db ids readFile encode) =
      lastReadableImage (db.windows.filter (fun w => ids.contains w.capture_id)) id
        readFile encode) := by
  constructor
  · unfold fetch_images_for_captures
    by_cases hids : ids.isEmpty
    · simp [hids]
    · rw [if_neg hids]
      exact fetchFold_nodup readFile encode _ [] (by simp)
  · intro id
    unfold fetch_images_for_captures lastReadableImage
    by_cases hids : ids.isEmpty
    · rw [if_pos hids]
      have hnil : ids = [] := by simpa using hids
      subst hnil
      simp [lookupKey]
    · rw [if_neg hids]
      rw [fetchFold_lookup]
      cases hlast : ((db.windows.filter (fun w => ids.contains w.capture_id)).filter
          (fun r => r.capture_id == id)).filterMap (imageContrib readFile encode) |>.getLast?
        <;> simp [hlast, lookupKey]

/-- C3: `ChangeDetector.evaluate` returns FirstFrame if and only if no prior
frame has been evaluated; on every later call it returns Significant exactly
when `hist_delta ≥ 0.08` or `ssim ≤ 0.92` and Insignificant otherwise; and on
every call (including Insignificant ones) the new frame's signature replaces
the stored previous signature. -/
theorem claim_C3 {Img Sig : Type} (F : DetectorFuns Img Sig) (previous : Option Sig)
    (image : Img) :
    (ChangeDetector.evaluate F previous image).2 = some (F.fromImage image) ∧
    ((ChangeDetector.evaluate F previous image).1 = ChangeDecision.firstFrame ↔
      previous = none) ∧
    (∀ prev_sig, previous = some prev_sig →
      ((ChangeDetector.evaluate F previous image).1 =
          ChangeDecision.significant (F.histogram_distance (F.fromImage image) prev_sig)
            (F.compute_ssim (F.fromImage image) prev_sig) ↔
        (F.histogram_distance (F.fromImage image) prev_sig ≥ HISTOGRAM_THRESHOLD ∨
          F.compute_ssim (F.fromImage image) prev_sig ≤ SSIM_THRESHOLD)) ∧
      ((ChangeDetector.evaluate F previous image).1 =
          ChangeDecision.insignificant (F.histogram_distance (F.fromImage image) prev_sig)
            (F.compute_ssim (F.fromImage image) prev_sig) ↔
        ¬ (F.histogram_distance (F.fromImage image) prev_sig ≥ HISTOGRAM_THRESHOLD ∨
          F.compute_ssim (F.fromImage image) prev_sig ≤ SSIM_THRESHOLD))) := by
  cases previous with
  | none =>
    refine ⟨rfl, by simp [ChangeDetector.evaluate], ?_⟩
    intro prev_sig h
    exact absurd h (by simp)
  | some ps =>
    by_cases hcond : F.histogram_distance (F.fromImage image) ps ≥ HISTOGRAM_THRESHOLD ∨
        F.compute_ssim (F.fromImage image) ps ≤ SSIM_THRESHOLD
    · refine ⟨by simp [ChangeDetector.evaluate, hcond], ?_, ?_⟩
      · simp [ChangeDetector.evaluate, hcond]
      · intro prev_sig h
        rw [Option.some.injEq] at h
        subst h
        simp [ChangeDetector.evaluate, hcond]
    · refine ⟨by simp [ChangeDetector.evaluate, hcond], ?_, ?_⟩
      · simp [ChangeDetector.evaluate, hcond]
      · intro prev_sig h
        rw [Option.some.injEq] at h
        subst h
        simp [ChangeDetector.evaluate, hcond]

/-- Witness for C3 at a concrete detector instantiation: with a stored
previous signature and metrics `hist_delta = 0`, `ssim = 1`, the call is not
FirstFrame, it is Insignificant, and the signature is stored. -/
theorem claim_C3_witness :
    (ChangeDetector.evaluate trivialDetectorFuns (some ()) ()).2 = some () ∧
    ¬ (ChangeDetector.evaluate trivialDetectorFuns (some ()) ()).1 =
        ChangeDecision.firstFrame ∧
    (ChangeDetector.evaluate trivialDetectorFuns (some ()) ()).1 =
      ChangeDecision.insignificant 0 1 := by
  obtain ⟨h1, h2, h3⟩ := claim_C3 trivialDetectorFuns (some ()) ()
  obtain ⟨hsig, hinsig⟩ := h3 () rfl
  refine ⟨h1, ?_, ?_⟩
  · intro hcontra
    exact Option.some_ne_none () (h2.mp hcontra)
  · apply hinsig.mpr
    simp only [trivialDetectorFuns]
    norm_num [HISTOGRAM_THRESHOLD, SSIM_THRESHOLD]

/-- C4: within one capture loop, `frame_number` is advanced (by exactly 1)
only when a batch has been committed; an Insignificant decision, a platform
capture error, or a `persist_batch` error leaves it unchanged, so the
`frame_number` values of successfully persisted batches are `0, 1, 2, …` — a
strictly increasing sequence with no gaps (stated for runs of at most
`u64::MAX` commits, the entire range the counter can express). -/
theorem claim_C4 (ticks : List TickOutcome) (h : countCommitted ticks ≤ U64_MAX) :
    (loopRun 0 ticks).2 = List.range (countCommitted ticks) ∧
    List.Pairwise (· < ·) ((loopRun 0 ticks).2) ∧
    (∀ fn t, t ≠ TickOutcome.committed → loopStep fn t = (fn, none)) ∧
    (∀ fn, fn < U64_MAX → loopStep fn TickOutcome.committed = (fn + 1, some fn)) := by
  have heq : (loopRun 0 ticks).2 = List.range (countCommitted ticks) := by
    rw [loopRun_persisted 0 ticks (Nat.zero_le _)]
    conv_rhs => rw [← List.map_id (List.range (countCommitted ticks))]
    apply List.map_congr_left
    intro i hi
    have hik : i < countCommitted ticks := List.mem_range.mp hi
    simp only [id]
    rw [Nat.zero_add, Nat.min_def, if_pos (by omega)]
  refine ⟨heq, ?_, ?_, ?_⟩
  · rw [heq]
    exact List.pairwise_lt_range _
  · intro fn t ht
    cases t
    all_goals first | rfl | exact absurd rfl ht
  · intro fn hfn
    simp only [loopStep, saturating_add_one]
    rw [Nat.min_def, if_pos (by omega)]

/-- Witness for C4: a concrete run with three commits interleaved with an
insignificant frame, a platform error and a persist error persists exactly
the frame numbers `[0, 1, 2]`. -/
theorem claim_C4_witness :
    countCommitted [TickOutcome.committed, TickOutcome.insignificantFrame,
      TickOutcome.platformError, TickOutcome.committed, TickOutcome.persistError,
      TickOutcome.committed] ≤ U64_MAX ∧
    (loopRun 0 [TickOutcome.committed, TickOutcome.insignificantFrame,
      TickOutcome.platformError, TickOutcome.committed, TickOutcome.persistError,
      TickOutcome.committed]).2 =
      List.range (countCommitted [TickOutcome.committed, TickOutcome.insignificantFrame,
        TickOutcome.platformError, TickOutcome.committed, TickOutcome.persistError,
        TickOutcome.committed]) :=
  ⟨by decide,
    (claim_C4 [TickOutcome.committed, TickOutcome.insignificantFrame,
      TickOutcome.platformError, TickOutcome.committed, TickOutcome.persistError,
      TickOutcome.committed] (by decide)).1⟩

/-- C5: for every Backoff constructed from `(base, max)` — with `max` clamped
to at least `base` at construction — and every sequence of `record` /
`on_error` calls: `current` stays within `[base, max]`; `record(Significant)`
and `record(FirstFrame)` reset `current` to `base`; `record(Insignificant)`
sets `current` to `min(max, round(current·1.5))`; `on_error` sets `current` to
`min(max, current + base)`. -/
theorem claim_C5 (base maxv : Nat) (ops : List BackoffOp) :
    ((Backoff.new base maxv).applyOps ops).base = base ∧
    ((Backoff.new base maxv).applyOps ops).max = Nat.max maxv base ∧
    base ≤ ((Backoff.new base maxv).applyOps ops).current ∧
    ((Backoff.new base maxv).applyOps ops).current ≤
      ((Backoff.new base maxv).applyOps ops).max ∧
    (∀ d s, (((Backoff.new base maxv).applyOps ops).record
        (ChangeDecision.significant d s)).current = base) ∧
    ((((Backoff.new base maxv).applyOps ops).record ChangeDecision.firstFrame).current =
      base) ∧
    (∀ d s, (((Backoff.new base maxv).applyOps ops).record
        (ChangeDecision.insignificant d s)).current =
      min (((Backoff.new base maxv).applyOps ops).max)
        ((3 * ((Backoff.new base maxv).applyOps ops).current + 1) / 2)) ∧
    ((((Backoff.new base maxv).applyOps ops).on_error).current =
      min (((Backoff.new base maxv).applyOps ops).max)
        (((Backoff.new base maxv).applyOps ops).current + base)) := by
  have hbase : ((Backoff.new base maxv).applyOps ops).base = base :=
    Backoff.applyOps_base (Backoff.new base maxv) ops
  have hmax : ((Backoff.new base maxv).applyOps ops).max = Nat.max maxv base :=
    Backoff.applyOps_max (Backoff.new base maxv) ops
  obtain ⟨h1, h2, h3⟩ := Backoff.inv_applyOps (Backoff.inv_new base maxv) ops
  refine ⟨hbase, hmax, ?_, h3, ?_, ?_, ?_, ?_⟩
  · exact (le_of_eq hbase.symm).trans h2
  · intro d s
    simp only [Backoff.record]
    exact hbase
  · simp only [Backoff.record]
    exact hbase
  · intro d s
    simp only [Backoff.record]
    rw [Nat.min_comm]
  · simp only [Backoff.on_error]
    rw [Nat.min_comm, hbase]

/-- C9: advancing the per-loop `frame_number` uses saturating addition: the
counter never exceeds `u64::MAX`, never wraps to 0, and once at `u64::MAX` it
stays there. -/
theorem claim_C9 :
    (∀ fn ticks, fn ≤ U64_MAX → (loopRun fn ticks).1 ≤ U64_MAX) ∧
    (∀ ticks, (loopRun U64_MAX ticks).1 = U64_MAX) ∧
    (∀ n, saturating_add_one n ≠ 0) ∧
    saturating_add_one U64_MAX = U64_MAX := by
  refine ⟨fun fn ticks hfn => loopRun_final_le fn ticks hfn, loopRun_at_max, ?_, ?_⟩
  · intro n
    have hM : 0 < U64_MAX := by decide
    simp only [saturating_add_one]
    rw [Nat.min_def]
    split_ifs <;> omega
  · exact Nat.min_eq_right (Nat.le_succ _)

/-- Witness for C9: a concrete run from 0 stays within the `u64` range. -/
theorem claim_C9_witness :
    (0 : Nat) ≤ U64_MAX ∧ (loopRun 0 [TickOutcome.committed]).1 ≤ U64_MAX :=
  ⟨by decide, claim_C9.1 0 [TickOutcome.committed] (by decide)⟩

/-- C6: `prune` deletes every capture with `timestamp_ms` older than
`now − retention_days·86_400_000` when retention is enabled; when
`max_captures = M` and the capture count (after the retention stage) exceeds
M, it deletes exactly `count − M` captures — the oldest by ascending
`timestamp_ms` — so that exactly M remain, and in all cases at most M remain;
a second `prune` at the same clock reading changes nothing.  The hypotheses
hold for every real database (primary-key ids are distinct) and every real
configuration (`max_captures` is far below `2^63`). -/
theorem claim_C6 (retention_days max_captures : Option Nat) (now_ms : Nat) (db : DB)
    (wf : (db.captures.map (fun c => c.id)).Nodup)
    (hm : ∀ M, max_captures = some M → M < 2 ^ 63) :
    (∀ days, retention_days = some days →
      ∀ c ∈ (prune retention_days max_captures now_ms db).captures,
        ¬ c.timestamp_ms < pruneCutoff now_ms days) ∧
    (∀ M, max_captures = some M →
      (M < (retentionStage retention_days now_ms db).captures.length →
        (prune retention_days max_captures now_ms db).captures.length = M ∧
        List.Perm (prune retention_days max_captures now_ms db).captures
          ((sortBy (fun a b => decide (a.timestamp_ms ≤ b.timestamp_ms))
            (retentionStage retention_days now_ms db).captures).drop
            ((retentionStage retention_days now_ms db).captures.length - M))) ∧
      (prune retention_days max_captures now_ms db).captures.length ≤ M) ∧
    prune retention_days max_captures now_ms
        (prune retention_days max_captures now_ms db) =
      prune retention_days max_captures now_ms db := by
  refine ⟨?_, ?_, prune_idem _ _ _ _ wf hm⟩
  · intro days hdays c hc
    have hc1 : c ∈ (retentionStage retention_days now_ms db).captures :=
      capStage_subset hc
    rw [hdays] at hc1
    exact (retentionStage_mem hc1).2
  · intro M hM'
    have hMlt := hm M hM'
    have wf1 : (((retentionStage retention_days now_ms db).captures.map
        (fun c => c.id)).Nodup) := retentionStage_nodup wf
    refine ⟨?_, ?_⟩
    · intro hgt
      constructor
      · show (capStage max_captures (retentionStage retention_days now_ms db)).captures.length
          = M
        rw [hM']
        exact capStage_length_of_gt hMlt wf1 hgt
      · show List.Perm
          (capStage max_captures (retentionStage retention_days now_ms db)).captures _
        rw [hM']
        exact capStage_perm_of_gt hMlt wf1 hgt
    · show (capStage max_captures (retentionStage retention_days now_ms db)).captures.length
        ≤ M
      rw [hM']
      exact capStage_length_le hMlt wf1

/-- Witness for C6: five captures, `max_captures = 3`, no retention — pruning
caps the table at 3 rows and pruning again changes nothing. -/
theorem claim_C6_witness :
    ((exPruneDB.captures.map (fun c => c.id)).Nodup) ∧
    (prune none (some 3) 0 exPruneDB).captures.length ≤ 3 ∧
    prune none (some 3) 0 (prune none (some 3) 0 exPruneDB) =
      prune none (some 3) 0 exPruneDB := by
  have hm : ∀ M, (some 3 : Option Nat) = some M → M < 2 ^ 63 := by
    intro M hM
    injection hM with h
    subst h
    decide
  have hc := claim_C6 none (some 3) 0 exPruneDB (by decide) hm
  exact ⟨by decide, (hc.2.1 3 rfl).2, hc.2.2⟩

/-- C1 counterexample: the claim says the returned list is ordered
newest-first (descending `timestamp_ms`), but `search_captures` regroups the
rows through a `BTreeMap` keyed by capture id and returns its values without
re-sorting, i.e. in ascending-id order.  On a database with captures id 1 at
t=100 and id 2 at t=200, both matching the query `rust` with no bounds and
limit 10, the returned timestamps are `[100, 200]` — not descending. -/
theorem claim_C1_counterexample :
    (search_captures exSearchDB ("rust".toList) none none 10).map
        (fun cw => cw.timestamp_ms) = [100, 200] ∧
    pairwiseDesc ((search_captures exSearchDB ("rust".toList) none none 10).map
        (fun cw => cw.timestamp_ms)) = false := by
  refine ⟨by decide, by decide⟩

/-- C1 amended: every returned capture comes from a capture row that has at
least one window row whose text, window_name, app_name or browser_url
(lowercased) matches the SQL `LIKE` pattern `%term%` of at least one query
term (the whitespace-split tokens of the query of length > 1, lowercased;
plain substring containment when the term has no `%`/`_` wildcard), and whose
`timestamp_ms` lies within the supplied bounds; the capture rows are distinct;
for a non-negative limit at most `limit` rows are returned, and the newest
matching captures by descending `timestamp_ms` are the ones selected: every
matching capture within the bounds is either returned (with its id and
timestamp) or the result already holds `limit` rows, each with a timestamp at
least as large — but the returned list is ordered by ascending capture id,
not newest-first. -/
theorem claim_C1_amended (db : DB) (query : RStr) (start_time_ms end_time_ms : Option Int)
    (limit : Int) :
    (∀ cw ∈ search_captures db query start_time_ms end_time_ms limit,
      ∃ c ∈ db.captures, cw = captureWithMeta db c ∧
        timeOk start_time_ms end_time_ms c.timestamp_ms = true ∧
        ∃ w ∈ db.windows, w.capture_id = c.id ∧
          windowMatchesAny (searchTerms query) w = true) ∧
    ((search_captures db query start_time_ms end_time_ms limit).map
      (fun cw => cw.capture_id)).Pairwise (· < ·) ∧
    (0 ≤ limit →
      (search_captures db query start_time_ms end_time_ms limit).length ≤
        limit.toNat) ∧
    ((db.captures.map (fun c => c.id)).Nodup → 0 ≤ limit →
      ∀ c ∈ db.captures,
        timeOk start_time_ms end_time_ms c.timestamp_ms = true →
        (∃ w ∈ db.windows, w.capture_id = c.id ∧
          windowMatchesAny (searchTerms query) w = true) →
        ((∃ cw ∈ search_captures db query start_time_ms end_time_ms limit,
            cw.capture_id = c.id ∧ cw.timestamp_ms = c.timestamp_ms) ∨
          ((search_captures db query start_time_ms end_time_ms limit).length =
              limit.toNat ∧
            ∀ cw ∈ search_captures db query start_time_ms end_time_ms limit,
              c.timestamp_ms ≤ cw.timestamp_ms))) := by
  by_cases hterms : (searchTerms query).isEmpty
  · have hres : search_captures db query start_time_ms end_time_ms limit = [] := by
      simp [search_captures, hterms]
    rw [hres]
    refine ⟨by simp, by simp, by simp, ?_⟩
    intro _ _ c _ _ hexists
    rcases hexists with ⟨w, _, _, hwmatch⟩
    have hnil : searchTerms query = [] := by
      cases hq : searchTerms query with
      | nil => rfl
      | cons a t =>
        rw [hq] at hterms
        simp at hterms
    rw [hnil] at hwmatch
    simp [windowMatchesAny] at hwmatch
  · unfold search_captures
    rw [if_neg hterms]
    refine ⟨?_, ?_, ?_, ?_⟩
    · intro cw hcw
      rcases List.mem_map.mp hcw with ⟨p, hp, rfl⟩
      rcases foldl_btreeInsert_mem (fun c : CaptureRow => c.id)
          (fun c => captureWithMeta db c) _ [] p hp with h | h
      · exact absurd h (List.not_mem_nil p)
      rcases h with ⟨c, hc, rfl⟩
      have hc1 : c ∈ sortBy (fun a b => decide (b.timestamp_ms ≤ a.timestamp_ms))
          (db.captures.filter (fun c =>
            timeOk start_time_ms end_time_ms c.timestamp_ms &&
              db.windows.any (fun w =>
                w.capture_id == c.id && windowMatchesAny (searchTerms query) w))).dedup := by
        by_cases hneg : limit < 0
        · simpa [sqlLimit, hneg] using hc
        · simp only [sqlLimit, if_neg hneg] at hc
          exact List.mem_of_mem_take hc
      have hc2 : c ∈ (db.captures.filter (fun c =>
          timeOk start_time_ms end_time_ms c.timestamp_ms &&
            db.windows.any (fun w =>
              w.capture_id == c.id && windowMatchesAny (searchTerms query) w))) :=
        List.mem_dedup.mp ((sortBy_perm _ _).mem_iff.mp hc1)
      obtain ⟨hmem, hpred⟩ := List.mem_filter.mp hc2
      rw [Bool.and_eq_true] at hpred
      obtain ⟨htime, hany⟩ := hpred
      rcases List.any_eq_true.mp hany with ⟨w, hw, hwpred⟩
      rw [Bool.and_eq_true] at hwpred
      obtain ⟨hwid, hwmatch⟩ := hwpred
      exact ⟨c, hmem, rfl, htime, w, hw, by simpa using hwid, hwmatch⟩
    · rw [List.map_map]
      have hkeys := foldl_btreeInsert_pairwise (fun c : CaptureRow => c.id)
        (fun c => captureWithMeta db c)
        (sqlLimit limit (sortBy (fun a b => decide (b.timestamp_ms ≤ a.timestamp_ms))
          (db.captures.filter (fun c =>
            timeOk start_time_ms end_time_ms c.timestamp_ms &&
              db.windows.any (fun w =>
                w.capture_id == c.id && windowMatchesAny (searchTerms query) w))).dedup))
        [] (by simp)
      have hmapeq :
          ((sqlLimit limit (sortBy (fun a b => decide (b.timestamp_ms ≤ a.timestamp_ms))
            (db.captures.filter (fun c =>
              timeOk start_time_ms end_time_ms c.timestamp_ms &&
                db.windows.any (fun w =>
                  w.capture_id == c.id && windowMatchesAny (searchTerms query) w))).dedup)).foldl
            (fun acc c => btreeInsert c.id (captureWithMeta db c) acc) []).map
            ((fun cw => cw.capture_id) ∘ (fun p => p.2)) =
          ((sqlLimit limit (sortBy (fun a b => decide (b.timestamp_ms ≤ a.timestamp_ms))
            (db.captures.filter (fun c =>
              timeOk start_time_ms end_time_ms c.timestamp_ms &&
                db.windows.any (fun w =>
                  w.capture_id == c.id && windowMatchesAny (searchTerms query) w))).dedup)).foldl
            (fun acc c => btreeInsert c.id (captureWithMeta db c) acc) []).map Prod.fst := by
        apply List.map_congr_left
        intro p hp
        rcases foldl_btreeInsert_mem (fun c : CaptureRow => c.id)
            (fun c => captureWithMeta db c) _ [] p hp with h | h
        · exact absurd h (List.not_mem_nil p)
        · rcases h with ⟨c, hc, rfl⟩
          rfl
      rw [hmapeq]
      exact hkeys
    · intro hlim
      rw [List.length_map]
      have hfold := foldl_btreeInsert_length (fun c : CaptureRow => c.id)
        (fun c => captureWithMeta db c)
        (sqlLimit limit (sortBy (fun a b => decide (b.timestamp_ms ≤ a.timestamp_ms))
          (db.captures.filter (fun c =>
            timeOk start_time_ms end_time_ms c.timestamp_ms &&
              db.windows.any (fun w =>
                w.capture_id == c.id && windowMatchesAny (searchTerms query) w))).dedup))
        []
      have hlimlen : (sqlLimit limit (sortBy
          (fun a b => decide (b.timestamp_ms ≤ a.timestamp_ms))
          (db.captures.filter (fun c =>
            timeOk start_time_ms end_time_ms c.timestamp_ms &&
              db.windows.any (fun w =>
                w.capture_id == c.id && windowMatchesAny (searchTerms query) w))).dedup)).length
          ≤ limit.toNat := by
        have hneg : ¬ limit < 0 := by omega
        simp only [sqlLimit, if_neg hneg]
        exact List.length_take_le _ _
      simp only [List.length_nil, Nat.zero_add] at hfold
      omega
    · intro wf hlim c hc htime hexists
      have htotal : ∀ a b : CaptureRow,
          (fun a b : CaptureRow => decide (b.timestamp_ms ≤ a.timestamp_ms)) a b = true ∨
          (fun a b : CaptureRow => decide (b.timestamp_ms ≤ a.timestamp_ms)) b a = true := by
        intro a b
        rcases le_total b.timestamp_ms a.timestamp_ms with h | h
        · left; simpa using h
        · right; simpa using h
      have htrans : ∀ a b c : CaptureRow,
          (fun a b : CaptureRow => decide (b.timestamp_ms ≤ a.timestamp_ms)) a b = true →
          (fun a b : CaptureRow => decide (b.timestamp_ms ≤ a.timestamp_ms)) b c = true →
          (fun a b : CaptureRow => decide (b.timestamp_ms ≤ a.timestamp_ms)) a c = true := by
        intro a b c hab hbc
        simp only [decide_eq_true_eq] at hab hbc ⊢
        omega
      set matching := db.captures.filter (fun c =>
        timeOk start_time_ms end_time_ms c.timestamp_ms &&
          db.windows.any (fun w =>
            w.capture_id == c.id && windowMatchesAny (searchTerms query) w)) with hmatching
      set sorted := sortBy (fun a b => decide (b.timestamp_ms ≤ a.timestamp_ms))
        matching.dedup with hsorteddef
      set limited := sqlLimit limit sorted with hlimiteddef
      have hcand : c ∈ matching := by
        rw [hmatching]
        refine List.mem_filter.mpr ⟨hc, ?_⟩
        rw [Bool.and_eq_true]
        refine ⟨htime, ?_⟩
        rcases hexists with ⟨w, hw, hwid, hwmatch⟩
        refine List.any_eq_true.mpr ⟨w, hw, ?_⟩
        rw [Bool.and_eq_true]
        exact ⟨by simp [hwid], hwmatch⟩
      have hcsorted : c ∈ sorted := by
        rw [hsorteddef]
        exact (sortBy_perm _ _).mem_iff.mpr (List.mem_dedup.mpr hcand)
      have hnodup_limited : (limited.map (fun c => c.id)).Nodup := by
        have h1 : (matching.map (fun c => c.id)).Nodup := by
          rw [hmatching]
          exact ((List.filter_sublist _).map _).nodup wf
        have h2 : ((matching.dedup).map (fun c => c.id)).Nodup :=
          ((List.dedup_sublist _).map _).nodup h1
        have h3 : (sorted.map (fun c => c.id)).Nodup := by
          rw [hsorteddef]
          exact (((sortBy_perm _ _).map _).nodup_iff).mpr h2
        have hsub : limited.Sublist sorted := by
          rw [hlimiteddef]
          by_cases hneg : limit < 0
          · simp only [sqlLimit, if_pos hneg]
            exact List.Sublist.refl _
          · simp only [sqlLimit, if_neg hneg]
            exact List.take_sublist _ _
        exact (hsub.map _).nodup h3
      by_cases hcl : c ∈ limited
      · left
        have hfold := foldl_btreeInsert_complete (fun c : CaptureRow => c.id)
          (fun c => captureWithMeta db c) limited [] hnodup_limited c hcl
        exact ⟨captureWithMeta db c, List.mem_map_of_mem _ hfold, rfl, rfl⟩
      · right
        have hneg : ¬ limit < 0 := by omega
        have hlim_eq : limited = sorted.take limit.toNat := by
          rw [hlimiteddef]
          simp [sqlLimit, hneg]
        have hcdrop : c ∈ sorted.drop limit.toNat := by
          have hsplit := List.take_append_drop limit.toNat sorted
          have hmem2 : c ∈ sorted.take limit.toNat ++ sorted.drop limit.toNat := by
            rw [hsplit]
            exact hcsorted
          rcases List.mem_append.mp hmem2 with h | h
          · refine absurd ?_ hcl
            rw [hlim_eq]
            exact h
          · exact h
        have hlt : limit.toNat < sorted.length := by
          by_contra hcontra
          push_neg at hcontra
          rw [List.drop_eq_nil_of_le hcontra] at hcdrop
          exact absurd hcdrop (List.not_mem_nil c)
        have hfull : limited.length = limit.toNat := by
          rw [hlim_eq, List.length_take]
          omega
        constructor
        · rw [List.length_map]
          rw [foldl_btreeInsert_length_eq (fun c : CaptureRow => c.id)
            (fun c => captureWithMeta db c) limited [] hnodup_limited (by simp)]
          simp [hfull]
        · intro cw hcw
          rcases List.mem_map.mp hcw with ⟨p, hp, rfl⟩
          rcases foldl_btreeInsert_mem (fun c : CaptureRow => c.id)
            (fun c => captureWithMeta db c) limited [] p hp with h | h
          · exact absurd h (List.not_mem_nil p)
          rcases h with ⟨x, hx, rfl⟩
          show c.timestamp_ms ≤ x.timestamp_ms
          have hpw : sorted.Pairwise
              (fun a b : CaptureRow => decide (b.timestamp_ms ≤ a.timestamp_ms) = true) := by
            rw [hsorteddef]
            exact sortBy_pairwise (fun a b : CaptureRow =>
              decide (b.timestamp_ms ≤ a.timestamp_ms)) htotal htrans matching.dedup
          have hsplit := List.take_append_drop limit.toNat sorted
          rw [← hsplit] at hpw
          have hcross := (List.pairwise_append.mp hpw).2.2
          have hxtake : x ∈ sorted.take limit.toNat := by
            rw [← hlim_eq]
            exact hx
          have hrel := hcross x hxtake c hcdrop
          simpa using hrel

/-- Witness for C1 at the concrete database: with non-negative limit 10 the
result has at most 10 entries, and the matching capture id 1 at t=100 is
selected and returned with its id and timestamp. -/
theorem claim_C1_amended_witness :
    ((0 : Int) ≤ 10) ∧
    (search_captures exSearchDB ("rust".toList) none none 10).length ≤ (10 : Int).toNat ∧
    ((∃ cw ∈ search_captures exSearchDB ("rust".toList) none none 10,
        cw.capture_id = (1 : Int) ∧ cw.timestamp_ms = (100 : Int)) ∨
      ((search_captures exSearchDB ("rust".toList) none none 10).length =
          (10 : Int).toNat ∧
        ∀ cw ∈ search_captures exSearchDB ("rust".toList) none none 10,
          (100 : Int) ≤ cw.timestamp_ms)) :=
  ⟨by decide,
    (claim_C1_amended exSearchDB ("rust".toList) none none 10).2.2.1 (by decide),
    (claim_C1_amended exSearchDB ("rust".toList) none none 10).2.2.2 (by decide)
      (by decide) { id := 1, frame_number := 0, timestamp_ms := 100 } (by decide)
      (by decide) ⟨exSearchW1, by decide, by decide, by decide⟩⟩

end Memri
